import Mathlib

/-
Verification of the day20 jigsaw-tile arrangement engine
(src/day20/src/main.rs) against its natural-language specification.

The Rust code is shallowly embedded: HashSet iteration is determinized as
lists kept in insertion order (insertion appends when absent), HashMap is
embedded as a function with pointwise update, machine integers become Nat
or Int, and a Rust panic becomes an Option-valued none.  The recursive
backtracking search is given explicit fuel; every call site supplies more
fuel than the recursion can consume, so fuel exhaustion never occurs on
the executions studied here.
-/

namespace Day20

abbrev TileID := Nat
abbrev EdgePattern := Nat

/-- Embedding of the REVERSE_EDGE_PATTERNS table entry for index p:
for each bit 0..9 set in p, set bit (0x200 >> bit) in the result.
The table is only ever indexed with 10-bit patterns. -/
def reversed (p : EdgePattern) : EdgePattern :=
  (List.range 10).foldl
    (fun rev bit => if p &&& (1 <<< bit) ≠ 0 then rev ||| (0x200 >>> bit) else rev) 0

structure Tile where
  id : TileID
  top : EdgePattern
  left : EdgePattern
  right : EdgePattern
  bottom : EdgePattern
  content : List (List Char)
deriving DecidableEq, Repr

inductive Orientation
  | R0
  | R90
  | R180
  | R270
  | R0FlipH
  | R0FlipV
  | R90FlipH
  | R90FlipV
deriving DecidableEq, Repr

/-- The EnumIter order of the Orientation derive (declaration order). -/
def Orientation.all : List Orientation :=
  [.R0, .R90, .R180, .R270, .R0FlipH, .R0FlipV, .R90FlipH, .R90FlipV]

structure OrientedTile where
  tile_id : TileID
  orientation : Orientation
deriving DecidableEq, Repr

def Tile.top_edge_in_orientation (t : Tile) (orientation : Orientation) : EdgePattern :=
  match orientation with
  | .R0 => t.top
  | .R90 => t.right
  | .R180 => reversed t.bottom
  | .R270 => reversed t.left
  | .R0FlipH => reversed t.top
  | .R0FlipV => t.bottom
  | .R90FlipH => reversed t.right
  | .R90FlipV => t.left

def Tile.bottom_edge_in_orientation (t : Tile) (orientation : Orientation) : EdgePattern :=
  match orientation with
  | .R0 => t.bottom
  | .R90 => t.left
  | .R180 => reversed t.top
  | .R270 => reversed t.right
  | .R0FlipH => reversed t.bottom
  | .R0FlipV => t.top
  | .R90FlipH => reversed t.left
  | .R90FlipV => t.right

def Tile.left_edge_in_orientation (t : Tile) (orientation : Orientation) : EdgePattern :=
  match orientation with
  | .R0 => t.left
  | .R90 => reversed t.top
  | .R180 => reversed t.right
  | .R270 => t.bottom
  | .R0FlipH => t.right
  | .R0FlipV => reversed t.left
  | .R90FlipH => reversed t.bottom
  | .R90FlipV => t.top

def Tile.right_edge_in_orientation (t : Tile) (orientation : Orientation) : EdgePattern :=
  match orientation with
  | .R0 => t.right
  | .R90 => reversed t.bottom
  | .R180 => reversed t.left
  | .R270 => t.top
  | .R0FlipH => t.left
  | .R0FlipV => reversed t.right
  | .R90FlipH => reversed t.top
  | .R90FlipV => t.bottom

inductive Relationship
  | Above
  | Below
  | LeftOf
  | RightOf
deriving DecidableEq, Repr

/-- The edge comparison AllowedOrientedTiles::new performs when it considers
recording a candidate as a neighbour of a tile under the given relation. -/
def edgeMatches (rel : Relationship) (candidate : Tile) (co : Orientation)
    (tile : Tile) (o : Orientation) : Bool :=
  match rel with
  | .Above => candidate.bottom_edge_in_orientation co == tile.top_edge_in_orientation o
  | .Below => candidate.top_edge_in_orientation co == tile.bottom_edge_in_orientation o
  | .RightOf => candidate.left_edge_in_orientation co == tile.right_edge_in_orientation o
  | .LeftOf => candidate.right_edge_in_orientation co == tile.left_edge_in_orientation o

/-- One direction's neighbour set as AllowedOrientedTiles::new fills it for a
given (tile, orientation): all other tiles, in input order, in each of their
orientations whose relevant edge matches.  (HashSet contents determinized as
an insertion-ordered list.) -/
def neighboursOf (tiles : List Tile) (tile : Tile) (o : Orientation)
    (rel : Relationship) : List OrientedTile :=
  (tiles.filter (fun t => t.id ≠ tile.id)).flatMap fun candidate =>
    (Orientation.all.filter (fun co => edgeMatches rel candidate co tile o)).map
      fun co => ⟨candidate.id, co⟩

/-- The neighbours HashMap, embedded as a function; AllowedOrientedTiles::get
returns the stored set, or the empty set when the key is absent. -/
abbrev AllowedFn := TileID × Orientation × Relationship → List OrientedTile

def insertKey (m : AllowedFn) (k : TileID × Orientation × Relationship)
    (v : List OrientedTile) : AllowedFn :=
  fun k' => if k' = k then v else m k'

/-- The four map inserts AllowedOrientedTiles::new performs for one
(tile, orientation) pair. -/
def indexInsertOrient (tiles : List Tile) (tile : Tile) (m : AllowedFn)
    (o : Orientation) : AllowedFn :=
  insertKey
    (insertKey
      (insertKey
        (insertKey m (tile.id, o, .Above) (neighboursOf tiles tile o .Above))
        (tile.id, o, .Below) (neighboursOf tiles tile o .Below))
      (tile.id, o, .LeftOf) (neighboursOf tiles tile o .LeftOf))
    (tile.id, o, .RightOf) (neighboursOf tiles tile o .RightOf)

/-- The inner orientation loop of AllowedOrientedTiles::new for one tile. -/
def indexInsertTile (tiles : List Tile) (m : AllowedFn) (tile : Tile) : AllowedFn :=
  Orientation.all.foldl (indexInsertOrient tiles tile) m

/-- AllowedOrientedTiles::new: for every tile and orientation insert the four
directional neighbour sets; later inserts overwrite earlier ones. -/
def AllowedOrientedTiles.new (tiles : List Tile) : AllowedFn :=
  tiles.foldl (indexInsertTile tiles) (fun _ => [])

/-- The claim's per-relation direct edge comparison: B under oB placed in
relation rel to A under oA must present the opposing edge bit-equal. -/
def oppositeEdgeAgrees (rel : Relationship) (B : Tile) (oB : Orientation)
    (A : Tile) (oA : Orientation) : Prop :=
  match rel with
  | .RightOf => B.left_edge_in_orientation oB = A.right_edge_in_orientation oA
  | .LeftOf => B.right_edge_in_orientation oB = A.left_edge_in_orientation oA
  | .Above => B.bottom_edge_in_orientation oB = A.top_edge_in_orientation oA
  | .Below => B.top_edge_in_orientation oB = A.bottom_edge_in_orientation oA

/-- A single tile whose left and right edges are equal. -/
def c1Tile : Tile := ⟨1, 0, 0, 0, 0, []⟩

/-- Two tiles whose edges match on the A-right/B-left pair. -/
def c1TileA : Tile := ⟨1, 11, 12, 7, 13, []⟩

def c1TileB : Tile := ⟨2, 21, 7, 22, 23, []⟩

structure Pos where
  x : Int
  y : Int
deriving DecidableEq, Repr

def Pos.up (p : Pos) : Pos := ⟨p.x, p.y - 1⟩

def Pos.down (p : Pos) : Pos := ⟨p.x, p.y + 1⟩

def Pos.left (p : Pos) : Pos := ⟨p.x - 1, p.y⟩

def Pos.right (p : Pos) : Pos := ⟨p.x + 1, p.y⟩

/-- Pos::neighbours iteration order: up, down, left, right. -/
def Pos.neighboursList (p : Pos) : List Pos := [p.up, p.down, p.left, p.right]

instance : Add Pos := ⟨fun p q => ⟨p.x + q.x, p.y + q.y⟩⟩

structure Image where
  image : List (List Char)
  orientation : Orientation
  width : Nat
  height : Nat
deriving DecidableEq, Repr

/-- Image::new. -/
def Image.new (image : List (List Char)) : Image :=
  { image := image
    orientation := .R0
    height := image.length
    width := (image.headD []).length }

/-- The width() method: logical width under the current orientation. -/
def Image.widthO (i : Image) : Nat :=
  match i.orientation with
  | .R0 | .R180 | .R0FlipH | .R0FlipV => i.width
  | .R90 | .R270 | .R90FlipH | .R90FlipV => i.height

/-- The height() method: logical height under the current orientation. -/
def Image.heightO (i : Image) : Nat :=
  match i.orientation with
  | .R0 | .R180 | .R0FlipH | .R0FlipV => i.height
  | .R90 | .R270 | .R90FlipH | .R90FlipV => i.width

/-- Image::transform: map a logical coordinate to storage coordinates. -/
def Image.transform (i : Image) (pos : Pos) : Nat × Nat :=
  let x := pos.x.toNat
  let y := pos.y.toNat
  let rx := i.widthO - 1 - x
  let ry := i.heightO - 1 - y
  match i.orientation with
  | .R0 => (x, y)
  | .R90 => (ry, x)
  | .R180 => (rx, ry)
  | .R270 => (y, rx)
  | .R0FlipH => (rx, y)
  | .R0FlipV => (x, ry)
  | .R90FlipH => (ry, rx)
  | .R90FlipV => (y, x)

/-- Modelled from the claim: the paired inverse orientation, with R90 and R270
paired with each other and every other orientation paired with itself. -/
def pairedInverse : Orientation → Orientation
  | .R90 => .R270
  | .R270 => .R90
  | o => o

/-- Read a storage cell of a raw character grid, (column, row) order. -/
def storageGet (g : List (List Char)) (rc : Nat × Nat) : Char :=
  (g.getD rc.2 []).getD rc.1 ' '

/-- Write a storage cell of a raw character grid, (column, row) order. -/
def storageSet (g : List (List Char)) (rc : Nat × Nat) (c : Char) : List (List Char) :=
  g.set rc.2 ((g.getD rc.2 []).set rc.1 c)

/-- Image::get through the orientation lens. -/
def Image.get (i : Image) (pos : Pos) : Char :=
  storageGet i.image (i.transform pos)

/-- Image::get_mut followed by assignment, through the orientation lens. -/
def Image.set (i : Image) (pos : Pos) (c : Char) : Image :=
  { i with image := storageSet i.image (i.transform pos) c }

/-- Image::iter: row-major logical positions. -/
def Image.iterPos (i : Image) : List Pos :=
  (List.range i.heightO).flatMap fun y =>
    (List.range i.widthO).map fun x => ⟨(x : Int), (y : Int)⟩

/-- Image::has_monster_at. -/
def Image.has_monster_at (i : Image) (origin : Pos) (monster : Image) : Bool :=
  monster.iterPos.all fun pos =>
    monster.get pos == ' ' || i.get (pos + origin) == '#'

/-- Image::overwrite_monster. -/
def Image.overwrite_monster (i : Image) (origin : Pos) (monster : Image) : Image :=
  monster.iterPos.foldl
    (fun img pos => if monster.get pos == '#' then img.set (pos + origin) 'O' else img) i

/-- Image::find_monsters: scan top-left offsets with exclusive upper bounds
(0..(height()-monster.height()) and 0..(width()-monster.width())), marking and
counting each match against the current partially-marked image. -/
def Image.find_monsters (i : Image) (monster : Image) : Nat × Image :=
  (List.range (i.heightO - monster.heightO)).foldl
    (fun acc y =>
      (List.range (i.widthO - monster.widthO)).foldl
        (fun acc x =>
          let p : Pos := ⟨(x : Int), (y : Int)⟩
          if acc.2.has_monster_at p monster then
            (acc.1 + 1, acc.2.overwrite_monster p monster)
          else acc)
        acc)
    (0, i)

/-- The sea-monster bitmap of the top-level find_monsters. -/
def monsterImage : Image :=
  Image.new
    [[' ', ' ', ' ', ' ', ' ', ' ', ' ', ' ', ' ', ' ', ' ', ' ', ' ', ' ', ' ', ' ', ' ', ' ', '#', ' '],
     ['#', ' ', ' ', ' ', ' ', '#', '#', ' ', ' ', ' ', ' ', '#', '#', ' ', ' ', ' ', ' ', '#', '#', '#'],
     [' ', '#', ' ', ' ', '#', ' ', ' ', '#', ' ', ' ', '#', ' ', ' ', '#', ' ', ' ', '#', ' ', ' ', ' ']]

/-- The orientation loop of the top-level find_monsters: try each orientation
in turn, keeping all mutations, and stop after the first orientation whose
pass yields at least one match. -/
def findMonstersLoop (monster : Image) : List Orientation → Image → Image
  | [], img => img
  | o :: rest, img =>
    let r := Image.find_monsters { img with orientation := o } monster
    if r.1 > 0 then r.2 else findMonstersLoop monster rest r.2

/-- Top-level find_monsters: run the orientation loop, then count the cells
still reading '#'. -/
def findMonstersTop (image : Image) : Nat :=
  let img := findMonstersLoop monsterImage Orientation.all image
  (img.iterPos.filter fun pos => img.get pos == '#').length

/-- 1x1 image and 1x1 monster exposing the exclusive-bound offset scan. -/
def c6Img : Image := Image.new [['#']]

inductive TilePlacement
  | None
  | Placed (orientation : Orientation) (tile : Tile)
deriving DecidableEq, Repr

/-- HashSet insert on the frontier, determinized as append-if-absent. -/
def insertPos (l : List Pos) (p : Pos) : List Pos := if p ∈ l then l else l ++ [p]

/-- HashMap remove, on the pool embedded as a function. -/
def removeTile (m : TileID → Option Tile) (i : TileID) : TileID → Option Tile :=
  fun j => if j = i then none else m j

/-- HashMap insert keyed by the tile's id, as Arrangement::remove performs it. -/
def insertTile (m : TileID → Option Tile) (t : Tile) : TileID → Option Tile :=
  fun j => if j = t.id then some t else m j

/-- The initial pool: collect (tile.id, tile) for every tile, later entries
overwriting earlier ones. -/
def initPool (tiles : List Tile) : TileID → Option Tile :=
  tiles.foldl (fun m t => insertTile m t) (fun _ => none)

structure Arrangement where
  width : Int
  height : Int
  fixed_tiles : Pos → TilePlacement
  available_tiles : TileID → Option Tile
  next_positions : List Pos

/-- Arrangement::new. -/
def Arrangement.new (width height : Int) (tiles : List Tile) : Arrangement :=
  { width := width
    height := height
    fixed_tiles := fun _ => .None
    available_tiles := initPool tiles
    next_positions := [] }

/-- Arrangement::valid. -/
def Arrangement.valid (a : Arrangement) (pos : Pos) : Bool :=
  decide (0 ≤ pos.x) && decide (0 ≤ pos.y) &&
    decide (pos.x < a.width) && decide (pos.y < a.height)

/-- Arrangement::tile_at: the grid cell for valid positions, None otherwise. -/
def Arrangement.tile_at (a : Arrangement) (pos : Pos) : TilePlacement :=
  if a.valid pos then a.fixed_tiles pos else .None

/-- Pointwise update of the placement grid. -/
def setCell (f : Pos → TilePlacement) (pos : Pos) (v : TilePlacement) :
    Pos → TilePlacement :=
  fun q => if q = pos then v else f q

/-- Arrangement::place: none embeds the panic on an unavailable tile.
Removes the tile from the pool, writes the grid cell, removes pos from the
frontier and inserts every in-bounds still-empty neighbour of pos. -/
def Arrangement.place (a : Arrangement) (pos : Pos) (orientation : Orientation)
    (tile_id : TileID) : Option Arrangement :=
  match a.available_tiles tile_id with
  | some tile =>
    let a1 : Arrangement :=
      { a with
        available_tiles := removeTile a.available_tiles tile_id
        fixed_tiles := setCell a.fixed_tiles pos (.Placed orientation tile)
        next_positions := a.next_positions.filter fun q => decide (q ≠ pos) }
    some { a1 with
      next_positions := pos.neighboursList.foldl
        (fun l n =>
          if a1.valid n && decide (a1.tile_at n = .None) then insertPos l n else l)
        a1.next_positions }
  | none => none

/-- Arrangement::remove: return the placed tile to the pool, clear the cell,
re-insert pos into the frontier; a no-op on an empty cell. -/
def Arrangement.remove (a : Arrangement) (pos : Pos) : Arrangement :=
  match a.fixed_tiles pos with
  | .None => a
  | .Placed _ tile =>
    { a with
      available_tiles := insertTile a.available_tiles tile
      fixed_tiles := setCell a.fixed_tiles pos .None
      next_positions := insertPos a.next_positions pos }

structure OrientedTileSet where
  unrestricted : Bool
  oriented_tiles : List OrientedTile
deriving DecidableEq, Repr

def OrientedTileSet.new : OrientedTileSet := ⟨true, []⟩

/-- OrientedTileSet::restrict_to: intersect when already restricted, otherwise
adopt the given set. -/
def OrientedTileSet.restrict_to (s : OrientedTileSet)
    (neighbours : List OrientedTile) : OrientedTileSet :=
  if !s.unrestricted then
    ⟨false, s.oriented_tiles.filter fun ot => decide (ot ∈ neighbours)⟩
  else ⟨false, neighbours⟩

def OrientedTileSet.is_empty (s : OrientedTileSet) : Bool :=
  !s.unrestricted && s.oriented_tiles.isEmpty

/-- One neighbour step of possible_orientations that is followed by an
emptiness check (used for the up, right and down neighbours). -/
def restrictChecked (allowed : AllowedFn) (possible : OrientedTileSet)
    (pl : TilePlacement) (rel : Relationship) : Except TileID OrientedTileSet :=
  match pl with
  | .None => .ok possible
  | .Placed orientation tile =>
    let p := possible.restrict_to (allowed (tile.id, orientation, rel))
    if p.is_empty then .error tile.id else .ok p

/-- The checked restriction cascade of possible_orientations, in source order. -/
def checkNeighbours (allowed : AllowedFn) :
    OrientedTileSet → List (TilePlacement × Relationship) →
      Except TileID OrientedTileSet
  | p, [] => .ok p
  | p, (pl, rel) :: rest =>
    match restrictChecked allowed p pl rel with
    | .error t => .error t
    | .ok p' => checkNeighbours allowed p' rest

/-- Arrangement::possible_orientations: restrict by the left neighbour without
an emptiness check, then by up, right and down each followed by a check that
fails with that neighbour's tile id; none embeds the panic when no neighbour
is placed. -/
def Arrangement.possible_orientations (a : Arrangement) (pos : Pos)
    (allowed : AllowedFn) : Option (Except TileID (List OrientedTile)) :=
  let possible :=
    match a.tile_at pos.left with
    | .Placed orientation tile =>
      OrientedTileSet.new.restrict_to (allowed (tile.id, orientation, .RightOf))
    | .None => OrientedTileSet.new
  match
    checkNeighbours allowed possible
      [(a.tile_at pos.up, .Below), (a.tile_at pos.right, .LeftOf),
       (a.tile_at pos.down, .Above)]
  with
  | .error t => some (.error t)
  | .ok p => if p.unrestricted then none else some (.ok p.oriented_tiles)

/-- The candidate loop of Arrangement::try_arrange at one position: place the
candidate, recur; on failure undo and either propagate (blame differs) or
continue; candidate exhaustion blames tile id 0. -/
def tryCandidates (recur : Arrangement → Option (Except TileID Unit × Arrangement))
    (pos : Pos) :
    List OrientedTile → Arrangement → Option (Except TileID Unit × Arrangement)
  | [], a => some (.error 0, a)
  | c :: rest, a =>
    match a.place pos c.orientation c.tile_id with
    | none => none
    | some a1 =>
      match recur a1 with
      | none => none
      | some (.error t, a2) =>
        let a3 := a2.remove pos
        if t ≠ c.tile_id then some (.error t, a3)
        else tryCandidates recur pos rest a3
      | some (.ok _, a2) => some (.ok (), a2)

/-- Arrangement::try_arrange with fuel (the recursion consumes one pool tile
per level, so pool size + 1 fuel always suffices): succeed on an empty
frontier, otherwise take the first frontier position, compute its candidates
(propagating a blame failure), and run the candidate loop. -/
def tryArrange (allowed : AllowedFn) :
    Nat → Arrangement → Option (Except TileID Unit × Arrangement)
  | 0, _ => none
  | fuel + 1, a =>
    match a.next_positions.head? with
    | none => some (.ok (), a)
    | some pos =>
      match a.possible_orientations pos allowed with
      | none => none
      | some (.error t) => some (.error t, a)
      | some (.ok cands) => tryCandidates (tryArrange allowed fuel) pos cands a

/-- One anchor attempt of arrange_tiles: fresh arrangement, place the anchor
at the origin, search. -/
def anchorAttempt (allowed : AllowedFn) (width height : Int) (tiles : List Tile)
    (tile : Tile) (o : Orientation) : Option (Except TileID Arrangement) :=
  let a := Arrangement.new width height tiles
  match a.place ⟨0, 0⟩ o tile.id with
  | none => none
  | some a1 =>
    match tryArrange allowed (tiles.length + 1) a1 with
    | none => none
    | some (.ok _, a2) => some (.ok a2)
    | some (.error t, _) => some (.error t)

/-- The anchor loop of arrange_tiles: first successful attempt wins; the outer
none embeds a panic inside an attempt, the inner none exhaustion of all
anchors. -/
def arrangeGo (allowed : AllowedFn) (width height : Int) (tiles : List Tile) :
    List (Tile × Orientation) → Option (Option Arrangement)
  | [] => some none
  | (t, o) :: rest =>
    match anchorAttempt allowed width height tiles t o with
    | none => none
    | some (.ok arr) => some (some arr)
    | some (.error _) => arrangeGo allowed width height tiles rest

/-- arrange_tiles: build the index once, then try every tile in every
orientation as the origin anchor. -/
def arrange_tiles (width height : Int) (tiles : List Tile) :
    Option (Option Arrangement) :=
  arrangeGo (AllowedOrientedTiles.new tiles) width height tiles
    (tiles.flatMap fun t => Orientation.all.map fun o => (t, o))

/-- The list of in-bounds grid positions, row-major. -/
def validPositions (width height : Int) : List Pos :=
  (List.range height.toNat).flatMap fun (y : Nat) =>
    (List.range width.toNat).map fun (x : Nat) => { x := (x : Int), y := (y : Int) }

def placementId : TilePlacement → Option TileID
  | .None => none
  | .Placed _ tile => some tile.id

/-- The ids of the tiles placed on the in-bounds grid. -/
def placedList (a : Arrangement) : List TileID :=
  (validPositions a.width a.height).filterMap fun p => placementId (a.fixed_tiles p)

/-- The state invariant of the backtracking search: frontier entries are
in-bounds and empty; every in-bounds empty cell with a placed neighbour is in
the frontier; nothing is placed out of bounds; placed ids are distinct, drawn
from the input tiles, keyed consistently in the pool, and absent from it. -/
structure Inv (tiles : List Tile) (a : Arrangement) : Prop where
  frontier_valid : ∀ q ∈ a.next_positions, a.valid q = true ∧ a.fixed_tiles q = .None
  frontier_complete : ∀ q, a.valid q = true → a.fixed_tiles q = .None →
    (∃ n ∈ q.neighboursList, a.fixed_tiles n ≠ .None) → q ∈ a.next_positions
  placed_in_bounds : ∀ q, a.valid q = false → a.fixed_tiles q = .None
  placed_nodup : (placedList a).Nodup
  pool_spec : ∀ i t, a.available_tiles i = some t →
    t.id = i ∧ i ∈ tiles.map Tile.id ∧ i ∉ placedList a
  placed_sub : ∀ i ∈ placedList a, i ∈ tiles.map Tile.id

/-- Error returns of the search restore the cells and the pool, only grow the
frontier, and keep the dimensions. -/
def ErrRestores (a a' : Arrangement) : Prop :=
  a'.width = a.width ∧ a'.height = a.height ∧
    (∀ q, a'.fixed_tiles q = a.fixed_tiles q) ∧
    (∀ i, a'.available_tiles i = a.available_tiles i) ∧
    (∀ q, q ∈ a.next_positions → q ∈ a'.next_positions)

/-- Success returns of the search keep the dimensions, keep every placement of
the entry state, and end with an empty frontier. -/
def OkKeeps (a a' : Arrangement) : Prop :=
  a'.width = a.width ∧ a'.height = a.height ∧
    (∀ q, a.fixed_tiles q ≠ .None → a'.fixed_tiles q = a.fixed_tiles q)

/-- The contract of one search call: an error return restores cells and pool
and only grows the frontier; a success return keeps existing placements and
ends with an empty frontier elsewhere; both preserve the invariant. -/
def SearchPost (tiles : List Tile) (a : Arrangement) (r : Except TileID Unit)
    (a' : Arrangement) : Prop :=
  match r with
  | .error _ => ErrRestores a a' ∧ Inv tiles a'
  | .ok _ => OkKeeps a a' ∧ Inv tiles a'

/-- What a direction's constraint, as stored in the index, requires of a
candidate when the neighbour in that direction is placed. -/
def PlacedConstraint (allowed : AllowedFn) (ot : OrientedTile) :
    TilePlacement × Relationship → Prop
  | (.None, _) => True
  | (.Placed o tile, rel) => ot ∈ allowed (tile.id, o, rel)

def AnyPlaced (cs : List (TilePlacement × Relationship)) : Prop :=
  ∃ c ∈ cs, c.1 ≠ TilePlacement.None

/-- The meaning of an OrientedTileSet during the restriction cascade: the
unrestricted flag tracks whether any constraint was placed, and the member
list is exactly the candidates meeting all processed constraints. -/
def Models (s : OrientedTileSet) (P : OrientedTile → Prop) (anyP : Prop) : Prop :=
  (s.unrestricted = true ↔ ¬ anyP) ∧ (¬ anyP → ∀ ot, P ot) ∧
    (∀ ot, ot ∈ s.oriented_tiles ↔ (anyP ∧ P ot))

/-- The candidate-set semantics claimed for possible_orientations: the
candidate satisfies the index constraint of every placed orthogonal
neighbour. -/
def matchesAllPlaced (allowed : AllowedFn) (a : Arrangement) (pos : Pos)
    (ot : OrientedTile) : Prop :=
  (∀ o t, a.tile_at pos.left = .Placed o t → ot ∈ allowed (t.id, o, .RightOf)) ∧
    (∀ o t, a.tile_at pos.up = .Placed o t → ot ∈ allowed (t.id, o, .Below)) ∧
    (∀ o t, a.tile_at pos.right = .Placed o t → ot ∈ allowed (t.id, o, .LeftOf)) ∧
    (∀ o t, a.tile_at pos.down = .Placed o t → ot ∈ allowed (t.id, o, .Above))

def hasPlacedNeighbour (a : Arrangement) (pos : Pos) : Prop :=
  a.tile_at pos.left ≠ .None ∨ a.tile_at pos.up ≠ .None ∨
    a.tile_at pos.right ≠ .None ∨ a.tile_at pos.down ≠ .None

/-- The blamed id names a placed up, right or down neighbour (the ones whose
restriction is followed by an emptiness check). -/
def blamable (a : Arrangement) (pos : Pos) (t : TileID) : Prop :=
  (∃ o tile, a.tile_at pos.up = .Placed o tile ∧ tile.id = t) ∨
    (∃ o tile, a.tile_at pos.right = .Placed o tile ∧ tile.id = t) ∨
    (∃ o tile, a.tile_at pos.down = .Placed o tile ∧ tile.id = t)

/-- Claim-side edge agreement of horizontally adjacent oriented tiles. -/
def horizMatch (l r : Tile × Orientation) : Bool :=
  l.1.right_edge_in_orientation l.2 == r.1.left_edge_in_orientation r.2

/-- Claim-side edge agreement of vertically adjacent oriented tiles. -/
def vertMatch (t b : Tile × Orientation) : Bool :=
  t.1.bottom_edge_in_orientation t.2 == b.1.top_edge_in_orientation b.2

def rowPairsOk : List (Tile × Orientation) → Bool
  | [] => true
  | [_] => true
  | a :: b :: rest => horizMatch a b && rowPairsOk (b :: rest)

def rowsVertOk (r1 r2 : List (Tile × Orientation)) : Bool :=
  (r1.zip r2).all fun p => vertMatch p.1 p.2

def gridOk : List (List (Tile × Orientation)) → Bool
  | [] => true
  | [r] => rowPairsOk r
  | r1 :: r2 :: rest => rowPairsOk r1 && rowsVertOk r1 r2 && gridOk (r2 :: rest)

/-- Following the claim's wording of a solvable instance: a full
width-by-height assignment of the given tiles, each used exactly once in some
orientation, in which every two adjacent tiles' touching edges match
bit-for-bit. -/
def isValidTiling (tiles : List Tile) (w h : Nat)
    (grid : List (List (Tile × Orientation))) : Bool :=
  grid.length == h && grid.all (fun r => r.length == w) &&
    ((grid.flatMap fun r => r).map fun p => p.1.id).isPerm (tiles.map Tile.id) &&
    gridOk grid

/-- A solvable 2x2 instance (solution A B / C D, all in R0) on which the
search nonetheless dies: edge values are chosen so that the reversed seams
also match, luring the search into placing an already-used tile. -/
def c4TileA : Tile := ⟨1, 1, 2, 3, 4, []⟩

def c4TileB : Tile := ⟨2, 5, 3, 6, 128, []⟩

def c4TileC : Tile := ⟨3, 4, 7, 768, 8, []⟩

def c4TileD : Tile := ⟨4, 128, 768, 9, 10, []⟩

def c4Tiles : List Tile := [c4TileA, c4TileB, c4TileC, c4TileD]

def c4Solution : List (List (Tile × Orientation)) :=
  [[(c4TileA, .R0), (c4TileB, .R0)], [(c4TileC, .R0), (c4TileD, .R0)]]

/-- A 1x1 instance for the C4 witness. -/
def c4Tile1 : Tile := ⟨9, 1, 2, 3, 4, []⟩

def c2Tile : Tile := ⟨1, 1, 2, 3, 4, []⟩

/-- An arrangement with an empty frontier, an empty grid and one pooled tile. -/
def c2Arr : Arrangement :=
  { width := 2, height := 2
    fixed_tiles := fun _ => .None
    available_tiles := fun i => if i = 1 then some c2Tile else none
    next_positions := [] }

def c2Arr1 : Arrangement := (c2Arr.place ⟨0, 0⟩ .R0 1).getD c2Arr

def c3Tile : Tile := ⟨5, 1, 2, 3, 4, []⟩

/-- An arrangement where position (1, 0) has only its left neighbour placed. -/
def c3Arr : Arrangement :=
  { width := 2, height := 1
    fixed_tiles := fun q => if q = ⟨0, 0⟩ then .Placed .R0 c3Tile else .None
    available_tiles := fun _ => none
    next_positions := [⟨1, 0⟩] }

def c3Allowed : AllowedFn := fun _ => []

def c5Tile : Tile := ⟨2, 1, 2, 3, 4, []⟩

/-- A 1x2 arrangement whose single candidate placement at (0, 1) makes the
recursive call fail blaming that same candidate. -/
def c5Arr : Arrangement :=
  { width := 1, height := 2
    fixed_tiles := fun _ => .None
    available_tiles := fun i => if i = 2 then some c5Tile else none
    next_positions := [⟨0, 1⟩] }

def c5Cand : OrientedTile := ⟨2, .R0⟩

def c5Allowed : AllowedFn := fun _ => []

def c5Arr1 : Arrangement := (c5Arr.place ⟨0, 1⟩ .R0 2).getD c5Arr

def c10Tile : Tile := ⟨2, 1, 2, 3, 4, []⟩

/-- A 2x1 arrangement whose recursive call exhausts its candidates and
returns the blame-0 failure. -/
def c10Arr : Arrangement :=
  { width := 2, height := 1
    fixed_tiles := fun _ => .None
    available_tiles := fun i => if i = 2 then some c10Tile else none
    next_positions := [⟨0, 0⟩] }

def c10Cand : OrientedTile := ⟨2, .R0⟩

def c10Allowed : AllowedFn := fun _ => []

def c10Arr1 : Arrangement := (c10Arr.place ⟨0, 0⟩ .R0 2).getD c10Arr

/-- Writes of a fixed list of storage coordinates with the mark character. -/
def writeCells (g : List (List Char)) (cs : List (Nat × Nat)) : List (List Char) :=
  cs.foldl (fun g rc => storageSet g rc 'O') g

/-- C7 counterexample image: a row of four marks over an empty row. -/
def c7Img : Image := Image.new [['#', '#', '#', '#'], ['.', '.', '.', '.']]

/-- C7 counterexample pattern: two adjacent required cells. -/
def c7Mon : Image := Image.new [['#', '#']]

/-- The tile list of the 1x1 instance used to exercise the search
postcondition. -/
def c4wTiles : List Tile := [c4Tile1]

/-- The arrangement the search returns on the 1x1 instance. -/
def c4wArr : Arrangement :=
  match arrange_tiles 1 1 c4wTiles with
  | some (some a) => a
  | _ => Arrangement.new 1 1 c4wTiles

theorem mem_orientation_all (o : Orientation) : o ∈ Orientation.all := by
  cases o <;> simp [Orientation.all]

theorem orientation_all_nodup : Orientation.all.Nodup := by decide

theorem indexInsertOrient_apply_ne (tiles : List Tile) (tile : Tile) (m : AllowedFn)
    (o : Orientation) (k : TileID × Orientation × Relationship)
    (h : k.1 ≠ tile.id ∨ k.2.1 ≠ o) :
    indexInsertOrient tiles tile m o k = m k := by
  have hk : ∀ rel : Relationship, k ≠ (tile.id, o, rel) := by
    intro rel hEq
    rcases h with h | h <;> (subst hEq; simp at h)
  simp [indexInsertOrient, insertKey, hk]

theorem indexInsertOrient_apply_self (tiles : List Tile) (tile : Tile) (m : AllowedFn)
    (o : Orientation) (rel : Relationship) :
    indexInsertOrient tiles tile m o (tile.id, o, rel) = neighboursOf tiles tile o rel := by
  cases rel <;> simp [indexInsertOrient, insertKey]

theorem foldl_orient_preserve (tiles : List Tile) (tile : Tile)
    (k : TileID × Orientation × Relationship) :
    ∀ (os : List Orientation) (m : AllowedFn), (k.1 ≠ tile.id ∨ k.2.1 ∉ os) →
      os.foldl (indexInsertOrient tiles tile) m k = m k := by
  intro os
  induction os with
  | nil => intro m _; rfl
  | cons o rest ih =>
    intro m h
    have h1 : k.1 ≠ tile.id ∨ k.2.1 ≠ o := by
      rcases h with h | h
      · exact Or.inl h
      · exact Or.inr fun ho => h (by simp [ho])
    have h2 : k.1 ≠ tile.id ∨ k.2.1 ∉ rest := by
      rcases h with h | h
      · exact Or.inl h
      · exact Or.inr fun hr => h (List.mem_cons_of_mem _ hr)
    rw [List.foldl_cons, ih _ h2, indexInsertOrient_apply_ne _ _ _ _ _ h1]

theorem foldl_orient_write (tiles : List Tile) (tile : Tile) :
    ∀ (os : List Orientation) (m : AllowedFn) (o : Orientation) (rel : Relationship),
      os.Nodup → o ∈ os →
      os.foldl (indexInsertOrient tiles tile) m (tile.id, o, rel) =
        neighboursOf tiles tile o rel := by
  intro os
  induction os with
  | nil => intro m o rel _ h; cases h
  | cons o' rest ih =>
    intro m o rel hnd hmem
    rw [List.foldl_cons]
    rcases List.mem_cons.mp hmem with rfl | hmem'
    · have hrest : ((tile.id, o, rel) : TileID × Orientation × Relationship).2.1 ∉ rest :=
        (List.nodup_cons.mp hnd).1
      rw [foldl_orient_preserve tiles tile _ rest _ (Or.inr hrest),
        indexInsertOrient_apply_self]
    · exact ih _ o rel (List.nodup_cons.mp hnd).2 hmem'

theorem foldl_tiles_preserve (tiles : List Tile) :
    ∀ (ts : List Tile) (m : AllowedFn) (k : TileID × Orientation × Relationship),
      k.1 ∉ ts.map Tile.id →
      ts.foldl (indexInsertTile tiles) m k = m k := by
  intro ts
  induction ts with
  | nil => intro m k _; rfl
  | cons t rest ih =>
    intro m k h
    rw [List.foldl_cons, ih _ _ (fun hm => h (by simp; right; simpa using hm))]
    exact foldl_orient_preserve tiles t k _ m (Or.inl fun he => h (by simp [he]))

theorem new_apply (tiles : List Tile) (A : Tile) (hA : A ∈ tiles)
    (hN : (tiles.map Tile.id).Nodup) (o : Orientation) (rel : Relationship) :
    AllowedOrientedTiles.new tiles (A.id, o, rel) = neighboursOf tiles A o rel := by
  obtain ⟨pre, post, rfl⟩ := List.append_of_mem hA
  have hpost : A.id ∉ post.map Tile.id := by
    rw [List.map_append, List.map_cons] at hN
    exact (List.nodup_cons.mp (List.Nodup.of_append_right hN)).1
  rw [AllowedOrientedTiles.new, List.foldl_append, List.foldl_cons,
    foldl_tiles_preserve _ post _ _ hpost, indexInsertTile,
    foldl_orient_write _ A Orientation.all _ o rel orientation_all_nodup
      (mem_orientation_all o)]

theorem eq_of_id_eq (tiles : List Tile) (hN : (tiles.map Tile.id).Nodup)
    {x y : Tile} (hx : x ∈ tiles) (hy : y ∈ tiles) (h : x.id = y.id) : x = y := by
  induction tiles with
  | nil => cases hx
  | cons t rest ih =>
    rw [List.map_cons, List.nodup_cons] at hN
    rcases List.mem_cons.mp hx with rfl | hx' <;> rcases List.mem_cons.mp hy with rfl | hy'
    · rfl
    · exact absurd (by rw [h]; exact List.mem_map_of_mem Tile.id hy') hN.1
    · exact absurd (by rw [← h]; exact List.mem_map_of_mem Tile.id hx') hN.1
    · exact ih hN.2 hx' hy'

theorem mem_neighboursOf (tiles : List Tile) (A B : Tile) (oA oB : Orientation)
    (rel : Relationship) (hN : (tiles.map Tile.id).Nodup) (hB : B ∈ tiles)
    (hBA : B.id ≠ A.id) :
    ((⟨B.id, oB⟩ : OrientedTile) ∈ neighboursOf tiles A oA rel) ↔
      edgeMatches rel B oB A oA = true := by
  constructor
  · intro h
    simp only [neighboursOf, List.mem_flatMap, List.mem_map, List.mem_filter,
      OrientedTile.mk.injEq, decide_eq_true_eq] at h
    obtain ⟨cand, ⟨hcand, _⟩, co, ⟨_, hmatch⟩, hid, rfl⟩ := h
    have : cand = B := eq_of_id_eq tiles hN hcand hB hid
    subst this
    exact hmatch
  · intro h
    simp only [neighboursOf, List.mem_flatMap, List.mem_map, List.mem_filter,
      OrientedTile.mk.injEq, decide_eq_true_eq]
    exact ⟨B, ⟨hB, hBA⟩, oB, ⟨mem_orientation_all oB, h⟩, rfl, rfl⟩

theorem edgeMatches_iff (rel : Relationship) (B : Tile) (oB : Orientation)
    (A : Tile) (oA : Orientation) :
    edgeMatches rel B oB A oA = true ↔ oppositeEdgeAgrees rel B oB A oA := by
  cases rel <;> simp [edgeMatches, oppositeEdgeAgrees]

/-- Claim C1 (amended): for tiles with pairwise-distinct ids and tiles A, B
with B.id different from A.id, the index built by AllowedOrientedTiles::new
contains (B, oB) in the set for (A.id, oA, rel) exactly when B's opposing edge
under oB bit-equals A's edge on the rel side under oA (RightOf compares B's
left edge with A's right edge, and analogously for the other relations).
The original claim also quantified over A = B; the code excludes a tile from
its own neighbour sets, see the counterexample. -/
theorem c1_index_agrees (tiles : List Tile) (A B : Tile) (oA oB : Orientation)
    (rel : Relationship) (hN : (tiles.map Tile.id).Nodup) (hA : A ∈ tiles)
    (hB : B ∈ tiles) (hBA : B.id ≠ A.id) :
    ((⟨B.id, oB⟩ : OrientedTile) ∈ AllowedOrientedTiles.new tiles (A.id, oA, rel)) ↔
      oppositeEdgeAgrees rel B oB A oA := by
  rw [new_apply tiles A hA hN oA rel, mem_neighboursOf tiles A B oA oB rel hN hB hBA,
    edgeMatches_iff]

/-- Counterexample to C1 as stated: with A = B = c1Tile, B's left edge under R0
bit-equals A's right edge under R0, yet the index does not contain (B, R0) in
the RightOf set of (A, R0), because the construction skips candidates with the
same tile id. -/
theorem c1_counterexample :
    ¬ (((⟨1, .R0⟩ : OrientedTile) ∈ AllowedOrientedTiles.new [c1Tile] (1, .R0, .RightOf)) ↔
      c1Tile.left_edge_in_orientation .R0 = c1Tile.right_edge_in_orientation .R0) := by
  decide

/-- Witness for C1 at a concrete two-tile input. -/
theorem c1_index_agrees_witness :
    (⟨2, .R0⟩ : OrientedTile) ∈ AllowedOrientedTiles.new [c1TileA, c1TileB] (1, .R0, .RightOf) :=
  (c1_index_agrees [c1TileA, c1TileB] c1TileA c1TileB .R0 .R0 .RightOf
    (by decide) (by simp) (by simp) (by decide)).mpr
    (show c1TileB.left_edge_in_orientation .R0 = c1TileA.right_edge_in_orientation .R0 by decide)

set_option maxRecDepth 8000

/-- Claim C8: bit-reversal is an involution on every representable 10-bit edge
pattern: for all p with p < 2^10, reversed (reversed p) = p. -/
theorem c8_reversed_involution : ∀ p : Nat, p < 1024 → reversed (reversed p) = p := by
  decide

/-- Witness for C8 at the concrete pattern 5. -/
theorem c8_reversed_involution_witness : 5 < 1024 ∧ reversed (reversed 5) = 5 :=
  ⟨by decide, c8_reversed_involution 5 (by decide)⟩

/-- Claim C9: every orientation has a paired inverse orientation (R90 and R270
paired with each other, the rest self-paired) such that applying the image's
coordinate transform and then the paired inverse's transform on the
correspondingly re-dimensioned image returns the original in-bounds
coordinate. -/
theorem c9_transform_inverse (i : Image) (pos : Pos)
    (hx0 : 0 ≤ pos.x) (hx : pos.x < (i.widthO : Int))
    (hy0 : 0 ≤ pos.y) (hy : pos.y < (i.heightO : Int)) :
    (Image.mk i.image (pairedInverse i.orientation) i.widthO i.heightO).transform
      ⟨((i.transform pos).1 : Int), ((i.transform pos).2 : Int)⟩
      = (pos.x.toNat, pos.y.toNat) := by
  obtain ⟨img, o, w, h⟩ := i
  obtain ⟨px, py⟩ := pos
  cases o <;>
    (simp only [Image.widthO, Image.heightO] at hx hy ⊢
     simp only [Image.transform, Image.widthO, Image.heightO, pairedInverse, Prod.mk.injEq]
     constructor <;> omega)

/-- A concrete 2x2 image in orientation R90. -/
def c9Img : Image := ⟨[['a', 'b'], ['c', 'd']], .R90, 2, 2⟩

/-- Witness for C9 on the R90/R270 pair at coordinate (0, 1). -/
theorem c9_transform_inverse_witness :
    (Image.mk c9Img.image (pairedInverse c9Img.orientation) c9Img.widthO c9Img.heightO).transform
      ⟨((c9Img.transform ⟨0, 1⟩).1 : Int), ((c9Img.transform ⟨0, 1⟩).2 : Int)⟩
      = ((0 : Int).toNat, (1 : Int).toNat) :=
  c9_transform_inverse c9Img ⟨0, 1⟩ (by decide) (by decide) (by decide) (by decide)

/-- Claim C6, failing input: with a 1x1 image equal to the 1x1 pattern, the
offset (0, 0) satisfies 0 <= 0 <= height - monster height (same for x) and the
pattern matches there, yet find_monsters scans the empty ranges
0..(height()-monster.height()) and 0..(width()-monster.width()) and reports no
match: the exclusive upper bound skips the last valid offset row and column. -/
theorem c6_boundary_offset_missed :
    (c6Img.find_monsters c6Img).1 = 0 ∧ c6Img.has_monster_at ⟨0, 0⟩ c6Img = true := by
  decide

/-- Counterexample to C7 as stated: in c7Img the pattern c7Mon occurs, within
the scanned offsets, at both (0, 0) and (1, 0) of the original unmarked image,
but the pass detects only the first: marking (0, 0) and (1, 0) with 'O'
prevents the overlapping occurrence at (1, 0) from matching. -/
theorem c7_counterexample :
    (c7Img.find_monsters c7Mon).1 = 1 ∧
      c7Img.has_monster_at ⟨0, 0⟩ c7Mon = true ∧
      c7Img.has_monster_at ⟨1, 0⟩ c7Mon = true := by
  decide

theorem set_oob {α : Type} (l : List α) (n : Nat) (a : α) (h : l.length ≤ n) :
    l.set n a = l := by
  induction l generalizing n with
  | nil => rfl
  | cons b t ih =>
    cases n with
    | zero => simp at h
    | succ n' =>
      show b :: t.set n' a = b :: t
      rw [ih n' (by simpa using h)]

theorem getD_set {α : Type} (l : List α) (n m : Nat) (a : α) (d : α) :
    (l.set n a).getD m d = if n = m ∧ n < l.length then a else l.getD m d := by
  induction l generalizing n m with
  | nil => simp
  | cons b t ih =>
    cases n with
    | zero =>
      cases m with
      | zero => simp
      | succ m' => simp
    | succ n' =>
      cases m with
      | zero => simp
      | succ m' => simpa using ih n' m'

theorem storageGet_storageSet (g : List (List Char)) (rc q : Nat × Nat) (c : Char) :
    storageGet (storageSet g rc c) q = storageGet g q ∨
      storageGet (storageSet g rc c) q = c := by
  unfold storageGet storageSet
  rw [getD_set]
  split
  · next h =>
    rw [getD_set]
    split
    · exact Or.inr rfl
    · left
      rw [h.1]
  · exact Or.inl rfl

theorem storageSet_set_same (g : List (List Char)) (rc : Nat × Nat) (c : Char) :
    storageSet (storageSet g rc c) rc c = storageSet g rc c := by
  unfold storageSet
  by_cases h : rc.2 < g.length
  · rw [getD_set, if_pos ⟨rfl, h⟩, List.set_set, List.set_set]
  · rw [set_oob g rc.2 _ (by omega), set_oob g rc.2 _ (by omega)]

theorem storageSet_comm (g : List (List Char)) (a b : Nat × Nat) (c : Char) :
    storageSet (storageSet g a c) b c = storageSet (storageSet g b c) a c := by
  by_cases hr : a.2 = b.2
  · by_cases hlen : a.2 < g.length
    · unfold storageSet
      rw [← hr, getD_set, if_pos ⟨rfl, hlen⟩, getD_set, if_pos ⟨rfl, hlen⟩,
        List.set_set, List.set_set]
      by_cases hx : a.1 = b.1
      · rw [hx]
      · rw [List.set_comm _ _ _ hx]
    · have e1 : ∀ X, g.set a.2 X = g := fun X => set_oob g a.2 X (by omega)
      unfold storageSet
      rw [← hr]
      simp only [e1]
  · have hr' : ¬ b.2 = a.2 := fun e => hr e.symm
    unfold storageSet
    simp only [getD_set, hr, hr', false_and, if_false]
    exact List.set_comm _ _ _ hr

theorem storageSet_push_writeCells (cs : List (Nat × Nat)) :
    ∀ (g : List (List Char)) (rc : Nat × Nat),
      storageSet (writeCells g cs) rc 'O' = writeCells (storageSet g rc 'O') cs := by
  induction cs with
  | nil => intro g rc; rfl
  | cons q rest ih =>
    intro g rc
    show storageSet (writeCells (storageSet g q 'O') rest) rc 'O' = _
    rw [ih, storageSet_comm]
    rfl

theorem writeCells_idem (cs : List (Nat × Nat)) :
    ∀ g : List (List Char), writeCells (writeCells g cs) cs = writeCells g cs := by
  induction cs with
  | nil => intro g; rfl
  | cons rc rest ih =>
    intro g
    show writeCells (storageSet (writeCells (storageSet g rc 'O') rest) rc 'O') rest = _
    rw [storageSet_push_writeCells, storageSet_set_same, ih]
    rfl

theorem overwrite_fold (m : Image) (origin : Pos) :
    ∀ (ps : List Pos) (img : Image),
      ps.foldl (fun img pos => if m.get pos == '#' then img.set (pos + origin) 'O' else img)
          img =
        { img with
          image := writeCells img.image
            ((ps.filter fun pos => m.get pos == '#').map
              fun pos => img.transform (pos + origin)) } := by
  intro ps
  induction ps with
  | nil => intro img; rfl
  | cons p rest ih =>
    intro img
    rw [List.foldl_cons]
    by_cases h : m.get p == '#'
    · rw [if_pos h, ih]
      have hf : (p :: rest).filter (fun pos => m.get pos == '#') =
          p :: rest.filter (fun pos => m.get pos == '#') := by
        simp [List.filter_cons, h]
      rw [hf, List.map_cons]
      rfl
    · rw [if_neg h, ih]
      have hf : (p :: rest).filter (fun pos => m.get pos == '#') =
          rest.filter (fun pos => m.get pos == '#') := by
        simp [List.filter_cons, h]
      rw [hf]

theorem overwrite_monster_image (i : Image) (origin : Pos) (m : Image) :
    i.overwrite_monster origin m =
      { i with
        image := writeCells i.image
          ((m.iterPos.filter fun pos => m.get pos == '#').map
            fun pos => i.transform (pos + origin)) } :=
  overwrite_fold m origin m.iterPos i

theorem transform_mk_image (img : List (List Char)) (i : Image) (q : Pos) :
    (Image.mk img i.orientation i.width i.height).transform q = i.transform q := rfl

theorem overwrite_monster_idem (i : Image) (origin : Pos) (m : Image) :
    (i.overwrite_monster origin m).overwrite_monster origin m =
      i.overwrite_monster origin m := by
  rw [overwrite_monster_image i origin m,
    overwrite_monster_image { i with
      image := writeCells i.image
        ((m.iterPos.filter fun pos => m.get pos == '#').map
          fun pos => i.transform (pos + origin)) } origin m]
  simp only [transform_mk_image]
  rw [writeCells_idem]

/-- The final grid refines the original: at every storage cell it either kept
the original character or was written with the mark character. -/
def MarkedLe (g g' : List (List Char)) : Prop :=
  ∀ rc : Nat × Nat, storageGet g' rc = storageGet g rc ∨ storageGet g' rc = 'O'

theorem markedLe_refl (g : List (List Char)) : MarkedLe g g := fun _ => Or.inl rfl

theorem markedLe_trans {g1 g2 g3 : List (List Char)} (h12 : MarkedLe g1 g2)
    (h23 : MarkedLe g2 g3) : MarkedLe g1 g3 := by
  intro rc
  rcases h23 rc with h | h
  · rw [h]; exact h12 rc
  · exact Or.inr h

theorem markedLe_storageSet (g : List (List Char)) (rc : Nat × Nat) :
    MarkedLe g (storageSet g rc 'O') :=
  fun q => storageGet_storageSet g rc q 'O'

theorem markedLe_writeCells (cs : List (Nat × Nat)) :
    ∀ g : List (List Char), MarkedLe g (writeCells g cs) := by
  induction cs with
  | nil => intro g; exact markedLe_refl g
  | cons rc rest ih =>
    intro g
    exact markedLe_trans (markedLe_storageSet g rc) (ih (storageSet g rc 'O'))

theorem markedLe_overwrite (i : Image) (origin : Pos) (m : Image) :
    MarkedLe i.image ((i.overwrite_monster origin m).image) := by
  rw [overwrite_monster_image]
  exact markedLe_writeCells _ i.image

theorem foldl_markedLe {β : Type} (f : (Nat × Image) → β → (Nat × Image))
    (hf : ∀ acc x, MarkedLe (acc.2.image) ((f acc x).2.image)) :
    ∀ (l : List β) (acc : Nat × Image),
      MarkedLe (acc.2.image) ((l.foldl f acc).2.image) := by
  intro l
  induction l with
  | nil => intro acc; exact markedLe_refl _
  | cons x rest ih =>
    intro acc
    exact markedLe_trans (hf acc x) (ih (f acc x))

theorem find_monsters_markedLe (i m : Image) :
    MarkedLe i.image ((i.find_monsters m).2.image) := by
  unfold Image.find_monsters
  refine foldl_markedLe _ ?_ _ (0, i)
  intro acc y
  refine foldl_markedLe _ ?_ _ acc
  intro acc' x
  dsimp only
  split
  · exact markedLe_overwrite acc'.2 _ m
  · exact markedLe_refl _

/-- Claim C7 (amended): within a single find_monsters pass, marking writes 'O'
per-cell and re-marking is idempotent; every storage cell of the final image
either keeps its original character or reads 'O'; hence a cell reads '#' after
the pass exactly when it was '#' originally and was not overwritten by a
detected match, and the final report counts exactly those cells.  Detection,
however, consults the current partially-marked image, so an occurrence
overlapping an earlier detected match on a required cell is not detected (see
the counterexample). -/
theorem c7_marking_behavior (i m : Image) (p : Pos) :
    ((i.overwrite_monster p m).overwrite_monster p m = i.overwrite_monster p m) ∧
      (∀ rc : Nat × Nat,
        storageGet ((i.find_monsters m).2.image) rc = '#' ↔
          (storageGet i.image rc = '#' ∧
            storageGet ((i.find_monsters m).2.image) rc ≠ 'O')) := by
  refine ⟨overwrite_monster_idem i p m, fun rc => ?_⟩
  rcases find_monsters_markedLe i m rc with h | h
  · rw [h]
    exact ⟨fun hh => ⟨hh, by rw [hh]; decide⟩, fun hh => hh.1⟩
  · rw [h]
    exact ⟨fun hh => absurd hh (by decide), fun hh => absurd rfl hh.2⟩

theorem mem_insertPos (l : List Pos) (p q : Pos) :
    q ∈ insertPos l p ↔ q ∈ l ∨ q = p := by
  unfold insertPos
  split
  · next h => exact ⟨Or.inl, fun hq => hq.elim id (fun e => e ▸ h)⟩
  · simp

theorem mem_foldl_insertPos (cond : Pos → Bool) :
    ∀ (ns : List Pos) (l : List Pos) (q : Pos),
      q ∈ ns.foldl (fun l n => if cond n then insertPos l n else l) l ↔
        q ∈ l ∨ (q ∈ ns ∧ cond q = true) := by
  intro ns
  induction ns with
  | nil => simp
  | cons n rest ih =>
    intro l q
    rw [List.foldl_cons]
    by_cases h : cond n
    · rw [if_pos h, ih, mem_insertPos]
      constructor
      · rintro ((hq | rfl) | ⟨hr, hc⟩)
        · exact Or.inl hq
        · exact Or.inr ⟨List.mem_cons_self _ _, h⟩
        · exact Or.inr ⟨List.mem_cons_of_mem _ hr, hc⟩
      · rintro (hq | ⟨hm, hc⟩)
        · exact Or.inl (Or.inl hq)
        · rcases List.mem_cons.mp hm with rfl | h'
          · exact Or.inl (Or.inr rfl)
          · exact Or.inr ⟨h', hc⟩
    · rw [if_neg h, ih]
      constructor
      · rintro (hq | ⟨hr, hc⟩)
        · exact Or.inl hq
        · exact Or.inr ⟨List.mem_cons_of_mem _ hr, hc⟩
      · rintro (hq | ⟨hm, hc⟩)
        · exact Or.inl hq
        · rcases List.mem_cons.mp hm with rfl | h'
          · exact absurd hc (by simpa using h)
          · exact Or.inr ⟨h', hc⟩

theorem neighbours_ne (p : Pos) : ∀ n ∈ p.neighboursList, n ≠ p := by
  obtain ⟨px, py⟩ := p
  intro n hn
  simp only [Pos.neighboursList, Pos.up, Pos.down, Pos.left, Pos.right,
    List.mem_cons, List.not_mem_nil, or_false] at hn
  rcases hn with rfl | rfl | rfl | rfl <;>
    (intro h; rw [Pos.mk.injEq] at h; omega)

theorem valid_eq_of_dims {a b : Arrangement} (hw : b.width = a.width)
    (hh : b.height = a.height) : b.valid = a.valid := by
  funext q
  unfold Arrangement.valid
  rw [hw, hh]

theorem place_spec (a : Arrangement) (pos : Pos) (o : Orientation) (id : TileID)
    (a1 : Arrangement) (hplace : a.place pos o id = some a1) :
    ∃ tile, a.available_tiles id = some tile ∧
      a1.width = a.width ∧ a1.height = a.height ∧
      a1.fixed_tiles = setCell a.fixed_tiles pos (.Placed o tile) ∧
      a1.available_tiles = removeTile a.available_tiles id ∧
      (∀ q, q ∈ a1.next_positions ↔
        ((q ∈ a.next_positions ∧ q ≠ pos) ∨
          (q ∈ pos.neighboursList ∧ q ≠ pos ∧ a.valid q = true ∧
            a.fixed_tiles q = .None))) := by
  unfold Arrangement.place at hplace
  cases hav : a.available_tiles id with
  | none => rw [hav] at hplace; cases hplace
  | some tile =>
    rw [hav] at hplace
    simp only [Option.some.injEq] at hplace
    refine ⟨tile, rfl, ?_, ?_, ?_, ?_, ?_⟩
    · rw [← hplace]
    · rw [← hplace]
    · rw [← hplace]
    · rw [← hplace]
    · intro q
      rw [← hplace]
      simp only []
      rw [mem_foldl_insertPos]
      constructor
      · rintro (hq | ⟨hn, hc⟩)
        · rw [List.mem_filter] at hq
          exact Or.inl ⟨hq.1, by simpa using hq.2⟩
        · refine Or.inr ⟨hn, neighbours_ne pos q hn, ?_, ?_⟩
          · rw [Bool.and_eq_true] at hc
            exact hc.1
          · rw [Bool.and_eq_true, decide_eq_true_eq] at hc
            have hv := hc.1
            have ht := hc.2
            unfold Arrangement.tile_at at ht
            rw [if_pos hv] at ht
            simpa [setCell, neighbours_ne pos q hn] using ht
      · rintro (⟨hq, hne⟩ | ⟨hn, hne, hv, he⟩)
        · exact Or.inl (by rw [List.mem_filter]; exact ⟨hq, by simpa using hne⟩)
        · refine Or.inr ⟨hn, ?_⟩
          rw [Bool.and_eq_true, decide_eq_true_eq]
          refine ⟨hv, ?_⟩
          unfold Arrangement.tile_at
          split
          · simpa [setCell, hne] using he
          · next hcontra => exact absurd hv hcontra

theorem remove_of_placed (a1 : Arrangement) (pos : Pos) (o : Orientation)
    (tile : Tile) (h : a1.fixed_tiles pos = .Placed o tile) :
    a1.remove pos =
      { a1 with
        available_tiles := insertTile a1.available_tiles tile
        fixed_tiles := setCell a1.fixed_tiles pos .None
        next_positions := insertPos a1.next_positions pos } := by
  unfold Arrangement.remove
  rw [h]

/-- Claim C2 (amended): for a pool whose entries are keyed by their tile's own
id, place followed by remove on the same in-bounds empty position restores the
occupancy at every position and the pool exactly, and keeps the dimensions;
the frontier, however, is not restored: it becomes the original frontier plus
pos itself plus every in-bounds empty neighbour of pos (the entries place
added are not retracted by remove). -/
theorem c2_place_remove (a : Arrangement) (pos : Pos) (o : Orientation)
    (id : TileID) (a1 : Arrangement)
    (hkey : ∀ i t, a.available_tiles i = some t → t.id = i)
    (hv : a.valid pos = true) (hempty : a.fixed_tiles pos = .None)
    (hplace : a.place pos o id = some a1) :
    (∀ q, (a1.remove pos).fixed_tiles q = a.fixed_tiles q) ∧
      (∀ i, (a1.remove pos).available_tiles i = a.available_tiles i) ∧
      (∀ q, q ∈ (a1.remove pos).next_positions ↔
        (q ∈ a.next_positions ∨ q = pos ∨
          (q ∈ pos.neighboursList ∧ a.valid q = true ∧ a.fixed_tiles q = .None))) ∧
      (a1.remove pos).width = a.width ∧ (a1.remove pos).height = a.height := by
  obtain ⟨tile, hav, hw, hh, hfix, hpool, hnext⟩ := place_spec a pos o id a1 hplace
  have hplaced : a1.fixed_tiles pos = .Placed o tile := by
    rw [hfix]; simp [setCell]
  have hid : tile.id = id := hkey id tile hav
  rw [remove_of_placed a1 pos o tile hplaced]
  refine ⟨?_, ?_, ?_, hw, hh⟩
  · intro q
    by_cases hq : q = pos
    · subst hq
      simp [setCell, hempty]
    · simp only [setCell, if_neg hq]
      rw [hfix]
      simp [setCell, hq]
  · intro i
    simp only [insertTile, hpool, removeTile, hid]
    by_cases hi : i = id
    · subst hi
      simp [hav]
    · simp [hi]
  · intro q
    simp only [mem_insertPos, hnext]
    constructor
    · rintro ((⟨hq, _⟩ | ⟨hn, _, hv', he⟩) | rfl)
      · exact Or.inl hq
      · exact Or.inr (Or.inr ⟨hn, hv', he⟩)
      · exact Or.inr (Or.inl rfl)
    · rintro (hq | rfl | ⟨hn, hv', he⟩)
      · by_cases hqp : q = pos
        · exact Or.inr hqp
        · exact Or.inl (Or.inl ⟨hq, hqp⟩)
      · exact Or.inr rfl
      · exact Or.inl (Or.inr ⟨hn, neighbours_ne pos q hn, hv', he⟩)

/-- Counterexample to C2 as stated: on an arrangement with an empty frontier,
placing tile 1 at (0, 0) and removing it again leaves (0, 0) (and its empty
in-bounds neighbours) in the frontier, so the result is not observably
identical to the starting state. -/
theorem c2_counterexample :
    (⟨0, 0⟩ : Pos) ∈ (c2Arr1.remove ⟨0, 0⟩).next_positions ∧
      (⟨0, 0⟩ : Pos) ∉ c2Arr.next_positions := by
  decide

/-- Witness for C2 at the concrete instance: the pool entry for tile 1 is
restored exactly. -/
theorem c2_place_remove_witness :
    (c2Arr1.remove ⟨0, 0⟩).available_tiles 1 = c2Arr.available_tiles 1 :=
  (c2_place_remove c2Arr ⟨0, 0⟩ .R0 1 c2Arr1
    (fun i t h => by
      by_cases hi : i = 1
      · subst hi; simp only [c2Arr] at h
        simp at h
        rw [← h]; rfl
      · simp only [c2Arr] at h; simp [hi] at h)
    (by decide) (by decide) rfl).2.1 1

theorem models_congr {s : OrientedTileSet} {P Q : OrientedTile → Prop}
    {anyP anyQ : Prop} (hPQ : ∀ ot, P ot ↔ Q ot) (hA : anyP ↔ anyQ)
    (h : Models s P anyP) : Models s Q anyQ := by
  obtain ⟨h1, h2, h3⟩ := h
  refine ⟨h1.trans (not_congr hA),
    fun hq ot => (hPQ ot).mp (h2 (fun hp => hq (hA.mp hp)) ot), fun ot => ?_⟩
  rw [h3 ot]
  exact and_congr hA (hPQ ot)

theorem models_new : Models OrientedTileSet.new (fun _ => True) False := by
  refine ⟨by simp [OrientedTileSet.new], fun _ _ => trivial, fun ot => ?_⟩
  simp [OrientedTileSet.new]

theorem restrict_unrestricted_false (s : OrientedTileSet) (l : List OrientedTile) :
    (s.restrict_to l).unrestricted = false := by
  unfold OrientedTileSet.restrict_to
  split <;> rfl

theorem models_restrict {s : OrientedTileSet} {P : OrientedTile → Prop}
    {anyP : Prop} (h : Models s P anyP) (l : List OrientedTile) :
    Models (s.restrict_to l) (fun ot => P ot ∧ ot ∈ l) True := by
  obtain ⟨h1, h2, h3⟩ := h
  unfold OrientedTileSet.restrict_to
  by_cases hu : s.unrestricted
  · have hnp : ¬ anyP := h1.mp hu
    rw [hu]
    simp only [Bool.not_true, Bool.false_eq_true, if_false]
    refine ⟨by simp, fun hq => absurd trivial hq, fun ot => ?_⟩
    simp only []
    exact ⟨fun hm => ⟨trivial, h2 hnp ot, hm⟩, fun hh => hh.2.2⟩
  · have hs : s.unrestricted = false := by
      revert hu; cases s.unrestricted <;> simp
    have hap : anyP := by
      by_contra hnp
      rw [h1.mpr hnp] at hs
      cases hs
    rw [hs]
    simp only [Bool.not_false, if_true]
    refine ⟨by simp, fun hq => absurd trivial hq, fun ot => ?_⟩
    simp only [List.mem_filter, decide_eq_true_eq]
    rw [h3 ot]
    exact ⟨fun hh => ⟨trivial, hh.1.2, hh.2⟩, fun hh => ⟨⟨hap, hh.2.1⟩, hh.2.2⟩⟩

theorem models_empty_iff {s : OrientedTileSet} {P : OrientedTile → Prop}
    (h : Models s P True) :
    s.oriented_tiles.isEmpty = true ↔ ∀ ot, ¬ P ot := by
  obtain ⟨_, _, h3⟩ := h
  rw [List.isEmpty_iff]
  constructor
  · intro he ot hot
    have := (h3 ot).mpr ⟨trivial, hot⟩
    rw [he] at this
    cases this
  · intro hno
    cases hl : s.oriented_tiles with
    | nil => rfl
    | cons x xs =>
      have := (h3 x).mp (by rw [hl]; exact List.mem_cons_self x xs)
      exact absurd this.2 (hno x)

theorem placedConstraint_iff (allowed : AllowedFn) (ot : OrientedTile)
    (pl : TilePlacement) (rel : Relationship) :
    PlacedConstraint allowed ot (pl, rel) ↔
      ∀ o t, pl = .Placed o t → ot ∈ allowed (t.id, o, rel) := by
  cases pl with
  | None =>
    simp only [PlacedConstraint]
    constructor
    · intro _ o t h
      cases h
    · intro _
      trivial
  | Placed o0 t0 =>
    simp only [PlacedConstraint]
    constructor
    · intro hm o t he
      rw [TilePlacement.Placed.injEq] at he
      rw [← he.1, ← he.2]
      exact hm
    · intro hh
      exact hh o0 t0 rfl

theorem checkNeighbours_spec (allowed : AllowedFn) :
    ∀ (cs : List (TilePlacement × Relationship)) (s : OrientedTileSet)
      (P : OrientedTile → Prop) (anyP : Prop), Models s P anyP →
      ((∀ p', checkNeighbours allowed s cs = .ok p' →
          Models p' (fun ot => P ot ∧ ∀ c ∈ cs, PlacedConstraint allowed ot c)
            (anyP ∨ AnyPlaced cs)) ∧
        (∀ t, checkNeighbours allowed s cs = .error t →
          (∃ o tile rel, ((TilePlacement.Placed o tile, rel) ∈ cs) ∧ tile.id = t) ∧
            (∀ ot, ¬ (P ot ∧ ∀ c ∈ cs, PlacedConstraint allowed ot c))) ∧
        (AnyPlaced cs →
          (∀ ot, ¬ (P ot ∧ ∀ c ∈ cs, PlacedConstraint allowed ot c)) →
          ∃ t, checkNeighbours allowed s cs = .error t)) := by
  intro cs
  induction cs with
  | nil =>
    intro s P anyP hm
    refine ⟨?_, ?_, ?_⟩
    · intro p' hp'
      cases hp'
      exact models_congr (fun ot => by simp) (by simp [AnyPlaced]) hm
    · intro t ht
      cases ht
    · intro hany
      exact absurd hany (by simp [AnyPlaced])
  | cons c rest ih =>
    obtain ⟨pl, rel⟩ := c
    intro s P anyP hm
    cases pl with
    | None =>
      have hstep : checkNeighbours allowed s ((TilePlacement.None, rel) :: rest) =
          checkNeighbours allowed s rest := rfl
      have hcons : ∀ ot, (∀ c ∈ (TilePlacement.None, rel) :: rest,
          PlacedConstraint allowed ot c) ↔ (∀ c ∈ rest, PlacedConstraint allowed ot c) := by
        intro ot
        rw [List.forall_mem_cons]
        simp [PlacedConstraint]
      have hanyiff : AnyPlaced ((TilePlacement.None, rel) :: rest) ↔ AnyPlaced rest := by
        unfold AnyPlaced
        simp
      obtain ⟨ihok, iherr, ihex⟩ := ih s P anyP hm
      refine ⟨?_, ?_, ?_⟩
      · intro p' hp'
        rw [hstep] at hp'
        exact models_congr (fun ot => and_congr Iff.rfl (hcons ot).symm)
          (or_congr Iff.rfl hanyiff.symm) (ihok p' hp')
      · intro t ht
        rw [hstep] at ht
        obtain ⟨⟨o, tile, rel', hmem, hid⟩, hno⟩ := iherr t ht
        refine ⟨⟨o, tile, rel', List.mem_cons_of_mem _ hmem, hid⟩, fun ot hot => ?_⟩
        exact hno ot ⟨hot.1, (hcons ot).mp hot.2⟩
      · intro hany hno
        rw [hstep]
        refine ihex (hanyiff.mp hany) fun ot hot => ?_
        exact hno ot ⟨hot.1, (hcons ot).mpr hot.2⟩
    | Placed o0 t0 =>
      have hmr := models_restrict hm (allowed (t0.id, o0, rel))
      have hcons : ∀ ot, (∀ c ∈ (TilePlacement.Placed o0 t0, rel) :: rest,
          PlacedConstraint allowed ot c) ↔
          ((ot ∈ allowed (t0.id, o0, rel)) ∧ ∀ c ∈ rest, PlacedConstraint allowed ot c) := by
        intro ot
        rw [List.forall_mem_cons]
        simp [PlacedConstraint]
      by_cases hie :
          (s.restrict_to (allowed (t0.id, o0, rel))).is_empty = true
      · have hstep : checkNeighbours allowed s ((TilePlacement.Placed o0 t0, rel) :: rest) =
            .error t0.id := by
          show (match (if (s.restrict_to (allowed (t0.id, o0, rel))).is_empty = true
              then (Except.error t0.id : Except TileID OrientedTileSet)
              else Except.ok (s.restrict_to (allowed (t0.id, o0, rel)))) with
            | Except.error t => Except.error t
            | Except.ok p' => checkNeighbours allowed p' rest) = _
          rw [if_pos hie]
        have hempty : ∀ ot, ¬ (P ot ∧ ot ∈ allowed (t0.id, o0, rel)) := by
          have hi := hie
          unfold OrientedTileSet.is_empty at hi
          rw [restrict_unrestricted_false] at hi
          simp only [Bool.not_false, Bool.true_and] at hi
          exact (models_empty_iff hmr).mp hi
        refine ⟨?_, ?_, ?_⟩
        · intro p' hp'
          rw [hstep] at hp'
          cases hp'
        · intro t ht
          rw [hstep] at ht
          cases ht
          refine ⟨⟨o0, t0, rel, List.mem_cons_self _ _, rfl⟩, fun ot hot => ?_⟩
          exact hempty ot ⟨hot.1, ((hcons ot).mp hot.2).1⟩
        · intro _ _
          exact ⟨t0.id, hstep⟩
      · have hstep : checkNeighbours allowed s ((TilePlacement.Placed o0 t0, rel) :: rest) =
            checkNeighbours allowed (s.restrict_to (allowed (t0.id, o0, rel))) rest := by
          show (match (if (s.restrict_to (allowed (t0.id, o0, rel))).is_empty = true
              then (Except.error t0.id : Except TileID OrientedTileSet)
              else Except.ok (s.restrict_to (allowed (t0.id, o0, rel)))) with
            | Except.error t => Except.error t
            | Except.ok p' => checkNeighbours allowed p' rest) = _
          rw [if_neg hie]
        have hanyc : AnyPlaced ((TilePlacement.Placed o0 t0, rel) :: rest) :=
          ⟨(TilePlacement.Placed o0 t0, rel), List.mem_cons_self _ _, by simp⟩
        obtain ⟨ihok, iherr, ihex⟩ :=
          ih (s.restrict_to (allowed (t0.id, o0, rel)))
            (fun ot => P ot ∧ ot ∈ allowed (t0.id, o0, rel)) True hmr
        refine ⟨?_, ?_, ?_⟩
        · intro p' hp'
          rw [hstep] at hp'
          refine models_congr (fun ot => ?_) ?_ (ihok p' hp')
          · rw [hcons ot]
            exact and_assoc
          · simp [hanyc]
        · intro t ht
          rw [hstep] at ht
          obtain ⟨⟨o, tile, rel', hmem, hid⟩, hno⟩ := iherr t ht
          refine ⟨⟨o, tile, rel', List.mem_cons_of_mem _ hmem, hid⟩, fun ot hot => ?_⟩
          have hc := (hcons ot).mp hot.2
          exact hno ot ⟨⟨hot.1, hc.1⟩, hc.2⟩
        · intro _ hno
          rw [hstep]
          have hrest : AnyPlaced rest := by
            by_contra hnr
            have htriv : ∀ ot, ∀ c ∈ rest, PlacedConstraint allowed ot c := by
              intro ot c hc
              obtain ⟨c1, c2⟩ := c
              cases c1 with
              | None => exact trivial
              | Placed oo tt => exact absurd ⟨(TilePlacement.Placed oo tt, c2), hc, by simp⟩ hnr
            have hkey : ∀ ot, ¬ (P ot ∧ ot ∈ allowed (t0.id, o0, rel)) := by
              intro ot hot
              exact hno ot ⟨hot.1, (hcons ot).mpr ⟨hot.2, htriv ot⟩⟩
            have : (s.restrict_to (allowed (t0.id, o0, rel))).is_empty = true := by
              unfold OrientedTileSet.is_empty
              rw [restrict_unrestricted_false]
              simp only [Bool.not_false, Bool.true_and]
              exact (models_empty_iff hmr).mpr hkey
            exact hie this
          refine ihex hrest fun ot hot => ?_
          exact hno ot ⟨hot.1.1, (hcons ot).mpr ⟨hot.1.2, hot.2⟩⟩

theorem anyPlaced_triple (a : Arrangement) (pos : Pos) :
    AnyPlaced [(a.tile_at pos.up, Relationship.Below),
        (a.tile_at pos.right, Relationship.LeftOf),
        (a.tile_at pos.down, Relationship.Above)] ↔
      (a.tile_at pos.up ≠ .None ∨ a.tile_at pos.right ≠ .None ∨
        a.tile_at pos.down ≠ .None) := by
  unfold AnyPlaced
  constructor
  · rintro ⟨c, hc, hne⟩
    simp only [List.mem_cons, List.not_mem_nil, or_false] at hc
    rcases hc with rfl | rfl | rfl
    · exact Or.inl hne
    · exact Or.inr (Or.inl hne)
    · exact Or.inr (Or.inr hne)
  · rintro (hne | hne | hne)
    · exact ⟨(a.tile_at pos.up, Relationship.Below), by simp, hne⟩
    · exact ⟨(a.tile_at pos.right, Relationship.LeftOf), by simp, hne⟩
    · exact ⟨(a.tile_at pos.down, Relationship.Above), by simp, hne⟩

theorem forall_triple (allowed : AllowedFn) (a : Arrangement) (pos : Pos)
    (ot : OrientedTile) :
    (∀ c ∈ [(a.tile_at pos.up, Relationship.Below),
        (a.tile_at pos.right, Relationship.LeftOf),
        (a.tile_at pos.down, Relationship.Above)], PlacedConstraint allowed ot c) ↔
      ((∀ o t, a.tile_at pos.up = .Placed o t → ot ∈ allowed (t.id, o, .Below)) ∧
        (∀ o t, a.tile_at pos.right = .Placed o t → ot ∈ allowed (t.id, o, .LeftOf)) ∧
        (∀ o t, a.tile_at pos.down = .Placed o t → ot ∈ allowed (t.id, o, .Above))) := by
  rw [List.forall_mem_cons, List.forall_mem_cons, List.forall_mem_singleton,
    placedConstraint_iff, placedConstraint_iff, placedConstraint_iff]

theorem blame_triple (a : Arrangement) (pos : Pos) (t : TileID)
    (h : ∃ o tile rel, ((TilePlacement.Placed o tile, rel) ∈
        [(a.tile_at pos.up, Relationship.Below),
          (a.tile_at pos.right, Relationship.LeftOf),
          (a.tile_at pos.down, Relationship.Above)]) ∧ tile.id = t) :
    blamable a pos t := by
  obtain ⟨o, tile, rel, hmem, hid⟩ := h
  simp only [List.mem_cons, List.not_mem_nil, or_false, Prod.mk.injEq] at hmem
  rcases hmem with ⟨h1, _⟩ | ⟨h1, _⟩ | ⟨h1, _⟩
  · exact Or.inl ⟨o, tile, h1.symm, hid⟩
  · exact Or.inr (Or.inl ⟨o, tile, h1.symm, hid⟩)
  · exact Or.inr (Or.inr ⟨o, tile, h1.symm, hid⟩)

/-- Claim C3 (amended): given at least one placed orthogonal neighbour,
possible_orientations does not hit the no-neighbour panic; a successful result
is exactly the intersection of the index sets of all placed orthogonal
neighbours; an error return blames a placed up, right or down neighbour and
the intersection is then empty; and whenever some up, right or down neighbour
is placed and the intersection is empty, an error is returned.  The original
claim also demanded an immediate error when the left neighbour alone empties
the candidate set, but the left restriction is not followed by an emptiness
check (see the counterexample). -/
theorem c3_amended (a : Arrangement) (pos : Pos) (allowed : AllowedFn)
    (h : hasPlacedNeighbour a pos) :
    (a.possible_orientations pos allowed ≠ none) ∧
      (∀ s, a.possible_orientations pos allowed = some (.ok s) →
        ∀ ot, ot ∈ s ↔ matchesAllPlaced allowed a pos ot) ∧
      (∀ t, a.possible_orientations pos allowed = some (.error t) →
        blamable a pos t ∧ ∀ ot, ¬ matchesAllPlaced allowed a pos ot) ∧
      ((a.tile_at pos.up ≠ .None ∨ a.tile_at pos.right ≠ .None ∨
          a.tile_at pos.down ≠ .None) →
        (∀ ot, ¬ matchesAllPlaced allowed a pos ot) →
        ∃ t, a.possible_orientations pos allowed = some (.error t)) := by
  have hm0 : Models
      (match a.tile_at pos.left with
        | .Placed orientation tile =>
          OrientedTileSet.new.restrict_to (allowed (tile.id, orientation, .RightOf))
        | .None => OrientedTileSet.new)
      (fun ot => ∀ o t, a.tile_at pos.left = .Placed o t →
        ot ∈ allowed (t.id, o, .RightOf))
      (a.tile_at pos.left ≠ TilePlacement.None) := by
    cases hL : a.tile_at pos.left with
    | None =>
      refine models_congr (fun ot => ?_) ?_ models_new
      · constructor
        · intro _ o t hpl
          cases hpl
        · intro _
          trivial
      · simp
    | Placed o0 t0 =>
      refine models_congr (fun ot => ?_) ?_
        (models_restrict models_new (allowed (t0.id, o0, .RightOf)))
      · constructor
        · rintro ⟨_, hm⟩ o t he
          rw [TilePlacement.Placed.injEq] at he
          rw [← he.1, ← he.2]
          exact hm
        · intro hh
          exact ⟨trivial, hh o0 t0 rfl⟩
      · simp
  obtain ⟨hok, herr, hex⟩ := checkNeighbours_spec allowed
    [(a.tile_at pos.up, .Below), (a.tile_at pos.right, .LeftOf),
      (a.tile_at pos.down, .Above)] _ _ _ hm0
  have heq : a.possible_orientations pos allowed =
      match checkNeighbours allowed
        (match a.tile_at pos.left with
          | .Placed orientation tile =>
            OrientedTileSet.new.restrict_to (allowed (tile.id, orientation, .RightOf))
          | .None => OrientedTileSet.new)
        [(a.tile_at pos.up, .Below), (a.tile_at pos.right, .LeftOf),
          (a.tile_at pos.down, .Above)] with
      | .error t => some (.error t)
      | .ok p => if p.unrestricted then none
          else some (.ok p.oriented_tiles) := rfl
  cases hcn : checkNeighbours allowed
      (match a.tile_at pos.left with
        | .Placed orientation tile =>
          OrientedTileSet.new.restrict_to (allowed (tile.id, orientation, .RightOf))
        | .None => OrientedTileSet.new)
      [(a.tile_at pos.up, .Below), (a.tile_at pos.right, .LeftOf),
        (a.tile_at pos.down, .Above)] with
  | error t0 =>
    rw [hcn] at heq
    have heq2 : a.possible_orientations pos allowed = some (.error t0) := heq
    clear heq
    have heq := heq2
    obtain ⟨hblame, hno⟩ := herr t0 hcn
    have hnomatch : ∀ ot, ¬ matchesAllPlaced allowed a pos ot := by
      intro ot hot
      obtain ⟨hl, hu, hr, hd⟩ := hot
      exact hno ot ⟨hl, (forall_triple allowed a pos ot).mpr ⟨hu, hr, hd⟩⟩
    refine ⟨by rw [heq]; simp, ?_, ?_, ?_⟩
    · intro s hs
      rw [heq] at hs
      simp at hs
    · intro t ht
      rw [heq] at ht
      simp only [Option.some.injEq, Except.error.injEq] at ht
      subst ht
      exact ⟨blame_triple a pos t0 hblame, hnomatch⟩
    · intro _ _
      exact ⟨t0, by rw [heq]⟩
  | ok p =>
    have hmp := hok p hcn
    have hanyT : (a.tile_at pos.left ≠ TilePlacement.None) ∨
        AnyPlaced [(a.tile_at pos.up, Relationship.Below),
          (a.tile_at pos.right, Relationship.LeftOf),
          (a.tile_at pos.down, Relationship.Above)] := by
      rcases h with h | h | h | h
      · exact Or.inl h
      · exact Or.inr ((anyPlaced_triple a pos).mpr (Or.inl h))
      · exact Or.inr ((anyPlaced_triple a pos).mpr (Or.inr (Or.inl h)))
      · exact Or.inr ((anyPlaced_triple a pos).mpr (Or.inr (Or.inr h)))
    have hu : p.unrestricted = false := by
      cases hpu : p.unrestricted
      · rfl
      · exact absurd hanyT (hmp.1.mp hpu)
    rw [hcn] at heq
    have heq2 : a.possible_orientations pos allowed =
        if p.unrestricted = true then none else some (.ok p.oriented_tiles) := heq
    clear heq
    have heq := heq2
    rw [hu] at heq
    simp only [Bool.false_eq_true, if_false] at heq
    refine ⟨by rw [heq]; simp, ?_, ?_, ?_⟩
    · intro s hs
      rw [heq] at hs
      simp only [Option.some.injEq, Except.ok.injEq] at hs
      subst hs
      intro ot
      rw [hmp.2.2 ot]
      constructor
      · rintro ⟨_, hl, hcs⟩
        obtain ⟨hu', hr', hd'⟩ := (forall_triple allowed a pos ot).mp hcs
        exact ⟨hl, hu', hr', hd'⟩
      · rintro ⟨hl, hu', hr', hd'⟩
        exact ⟨hanyT, hl, (forall_triple allowed a pos ot).mpr ⟨hu', hr', hd'⟩⟩
    · intro t ht
      rw [heq] at ht
      simp at ht
    · intro hurd hno
      exfalso
      obtain ⟨t, het⟩ := hex ((anyPlaced_triple a pos).mpr hurd)
        (fun ot hot => hno ot
          ⟨hot.1, ((forall_triple allowed a pos ot).mp hot.2).1,
            ((forall_triple allowed a pos ot).mp hot.2).2.1,
            ((forall_triple allowed a pos ot).mp hot.2).2.2⟩)
      rw [hcn] at het
      cases het

/-- Counterexample to C3 as stated: at (1, 0) only the left neighbour is
placed and its RightOf index set is empty, so the candidate set is narrowed
to empty by a single neighbour; the claim demands an immediate error blaming
tile 5, but the function returns Ok with an empty candidate set, because the
left restriction has no emptiness check. -/
theorem c3_counterexample :
    c3Arr.possible_orientations ⟨1, 0⟩ c3Allowed = some (.ok []) ∧
      c3Arr.tile_at (Pos.left ⟨1, 0⟩) = .Placed .R0 c3Tile := by
  constructor
  · rfl
  · decide

/-- Witness for C3 at the concrete arrangement: the function does not panic. -/
theorem c3_amended_witness :
    c3Arr.possible_orientations ⟨1, 0⟩ c3Allowed ≠ none :=
  (c3_amended c3Arr ⟨1, 0⟩ c3Allowed
    (Or.inl (by decide))).1

theorem tryCandidates_cons (recur : Arrangement → Option (Except TileID Unit × Arrangement))
    (pos : Pos) (c : OrientedTile) (rest : List OrientedTile) (a a1 : Arrangement)
    (hplace : a.place pos c.orientation c.tile_id = some a1) :
    tryCandidates recur pos (c :: rest) a =
      match recur a1 with
      | none => none
      | some (Except.error t, a2) =>
        if t ≠ c.tile_id then some (Except.error t, a2.remove pos)
        else tryCandidates recur pos rest (a2.remove pos)
      | some (Except.ok _, a2) => some (Except.ok (), a2) := by
  show (match a.place pos c.orientation c.tile_id with
    | none => none
    | some a1 =>
      match recur a1 with
      | none => none
      | some (Except.error t, a2) =>
        if t ≠ c.tile_id then some (Except.error t, a2.remove pos)
        else tryCandidates recur pos rest (a2.remove pos)
      | some (Except.ok _, a2) => some (Except.ok (), a2)) = _
  rw [hplace]

/-- Claim C5: in a try_arrange call frame iterating over candidates, a failed
recursive call is followed by removal of the placement; a blame different from
the candidate just tried is propagated unchanged without trying any remaining
candidate (the result does not depend on the rest of the list); an equal blame
continues with the next candidate on the restored state; exhausting all
candidates fails blaming tile id 0, which is not a candidate id whenever all
candidate ids are nonzero. -/
theorem c5_frame_behavior (allowed : AllowedFn) (f : Nat) (pos : Pos)
    (c : OrientedTile) (rest : List OrientedTile) (a a1 a2 : Arrangement)
    (t : TileID)
    (hplace : a.place pos c.orientation c.tile_id = some a1)
    (hrec : tryArrange allowed f a1 = some (.error t, a2)) :
    ((t ≠ c.tile_id →
        tryCandidates (tryArrange allowed f) pos (c :: rest) a =
          some (.error t, a2.remove pos)) ∧
      (t = c.tile_id →
        tryCandidates (tryArrange allowed f) pos (c :: rest) a =
          tryCandidates (tryArrange allowed f) pos rest (a2.remove pos)) ∧
      (∀ b, tryCandidates (tryArrange allowed f) pos [] b = some (.error 0, b)) ∧
      ((∀ c' ∈ c :: rest, c'.tile_id ≠ 0) →
        (0 : TileID) ∉ (c :: rest).map OrientedTile.tile_id)) := by
  have h1 := tryCandidates_cons (tryArrange allowed f) pos c rest a a1 hplace
  rw [hrec] at h1
  have h2 : tryCandidates (tryArrange allowed f) pos (c :: rest) a =
      if t ≠ c.tile_id then some (.error t, a2.remove pos)
      else tryCandidates (tryArrange allowed f) pos rest (a2.remove pos) := h1
  refine ⟨fun hne => by rw [h2, if_pos hne],
    fun heq => by rw [h2, if_neg (not_not_intro heq)],
    fun b => rfl, ?_⟩
  intro hns hmem
  rw [List.mem_map] at hmem
  obtain ⟨c', hc', hid⟩ := hmem
  exact hns c' hc' hid

/-- Witness for C5: the concrete frame whose recursive call blames the
candidate itself continues with the (empty) remainder of the candidates. -/
theorem c5_frame_behavior_witness :
    tryCandidates (tryArrange c5Allowed 1) ⟨0, 1⟩ [c5Cand] c5Arr =
      tryCandidates (tryArrange c5Allowed 1) ⟨0, 1⟩ [] (c5Arr1.remove ⟨0, 1⟩) :=
  ((c5_frame_behavior c5Allowed 1 ⟨0, 1⟩ c5Cand [] c5Arr c5Arr1 c5Arr1 2
    rfl rfl).2.1) rfl

/-- Claim C10: when every candidate id is nonzero, a recursive try_arrange
call returning the candidate-exhaustion failure Err 0 makes the enclosing
frame remove its own placement and return Err 0 without trying any remaining
candidate, for any remaining candidate list: exhaustion aborts the whole
call tree. -/
theorem c10_exhaustion_propagates (allowed : AllowedFn) (f : Nat) (pos : Pos)
    (c : OrientedTile) (rest : List OrientedTile) (a a1 a2 : Arrangement)
    (hc : c.tile_id ≠ 0)
    (hplace : a.place pos c.orientation c.tile_id = some a1)
    (hrec : tryArrange allowed f a1 = some (.error 0, a2)) :
    tryCandidates (tryArrange allowed f) pos (c :: rest) a =
      some (.error 0, a2.remove pos) := by
  have h1 := tryCandidates_cons (tryArrange allowed f) pos c rest a a1 hplace
  rw [hrec] at h1
  have h2 : tryCandidates (tryArrange allowed f) pos (c :: rest) a =
      if (0 : TileID) ≠ c.tile_id then some (.error 0, a2.remove pos)
      else tryCandidates (tryArrange allowed f) pos rest (a2.remove pos) := h1
  rw [h2, if_pos (fun he => hc he.symm)]

/-- Witness for C10: the concrete frame whose recursive call exhausts its
candidates propagates Err 0 after undoing its placement. -/
theorem c10_exhaustion_propagates_witness :
    tryCandidates (tryArrange c10Allowed 1) ⟨0, 0⟩ [c10Cand] c10Arr =
      some (.error 0, c10Arr1.remove ⟨0, 0⟩) :=
  c10_exhaustion_propagates c10Allowed 1 ⟨0, 0⟩ c10Cand [] c10Arr c10Arr1 c10Arr1
    (by decide) rfl rfl

theorem mem_validPositions (w h : Int) (q : Pos) :
    q ∈ validPositions w h ↔ 0 ≤ q.x ∧ 0 ≤ q.y ∧ q.x < w ∧ q.y < h := by
  obtain ⟨qx, qy⟩ := q
  simp only [validPositions, List.mem_flatMap, List.mem_map, List.mem_range]
  constructor
  · rintro ⟨y, hy, x, hx, heq⟩
    rw [Pos.mk.injEq] at heq
    obtain ⟨hex, hey⟩ := heq
    refine ⟨by omega, by omega, by omega, by omega⟩
  · rintro ⟨h1, h2, h3, h4⟩
    refine ⟨qy.toNat, by omega, qx.toNat, by omega, ?_⟩
    rw [Pos.mk.injEq]
    omega

theorem valid_iff_mem (a : Arrangement) (q : Pos) :
    a.valid q = true ↔ q ∈ validPositions a.width a.height := by
  rw [mem_validPositions]
  unfold Arrangement.valid
  simp only [Bool.and_eq_true, decide_eq_true_eq]
  tauto

theorem validPositions_nodup (w h : Int) : (validPositions w h).Nodup := by
  unfold validPositions
  rw [List.nodup_flatMap]
  constructor
  · intro y _
    refine List.Nodup.map ?_ (List.nodup_range _)
    intro x1 x2 hx
    rw [Pos.mk.injEq] at hx
    omega
  · refine List.Pairwise.imp ?_ (List.pairwise_lt_range _)
    intro y1 y2 hlt q hq1 hq2
    simp only [List.mem_map, List.mem_range] at hq1 hq2
    obtain ⟨x1, _, he1⟩ := hq1
    obtain ⟨x2, _, he2⟩ := hq2
    rw [← he2, Pos.mk.injEq] at he1
    omega

theorem validPositions_length (w h : Int) :
    (validPositions w h).length = h.toNat * w.toNat := by
  unfold validPositions
  rw [List.length_flatMap]
  have hmap : List.map (List.length ∘ fun (y : Nat) =>
      (List.range w.toNat).map fun (x : Nat) =>
        { x := (x : Int), y := (y : Int) : Pos }) (List.range h.toNat) =
      List.replicate h.toNat w.toNat := by
    rw [show (List.replicate h.toNat w.toNat) =
        List.map (Function.const Nat w.toNat) (List.range h.toNat) by
      rw [List.map_const, List.length_range]]
    refine List.map_congr_left ?_
    intro y _
    simp
  rw [hmap, List.sum_replicate, smul_eq_mul]

theorem filterMap_congr_local {α β : Type} (l : List α) (f g : α → Option β)
    (h : ∀ a ∈ l, f a = g a) : l.filterMap f = l.filterMap g := by
  induction l with
  | nil => rfl
  | cons a t ih =>
    rw [List.filterMap_cons, List.filterMap_cons, h a (List.mem_cons_self a t),
      ih fun q hq => h q (List.mem_cons_of_mem a hq)]

theorem filterMap_update_perm {α β : Type} [DecidableEq α] :
    ∀ (l : List α), l.Nodup → ∀ (p : α), p ∈ l → ∀ (f g : α → Option β),
      (∀ q, q ≠ p → f q = g q) → f p = none → ∀ x, g p = some x →
      (l.filterMap g).Perm (x :: l.filterMap f) := by
  intro l
  induction l with
  | nil => intro _ p hp; cases hp
  | cons a t ih =>
    intro hnd p hp f g hfg hfp x hgp
    rw [List.nodup_cons] at hnd
    rcases List.mem_cons.mp hp with rfl | hp'
    · have hft : t.filterMap f = t.filterMap g :=
        filterMap_congr_local t f g fun q hq =>
          hfg q fun he => hnd.1 (he ▸ hq)
    -- a = p: g contributes x at the head, f contributes nothing
      rw [List.filterMap_cons, List.filterMap_cons, hfp, hgp, hft]
    · have hne : a ≠ p := fun he => hnd.1 (he ▸ hp')
      have hfa : f a = g a := hfg a hne
      rw [List.filterMap_cons, List.filterMap_cons, hfa]
      cases hga : g a with
      | none => exact ih hnd.2 p hp' f g hfg hfp x hgp
      | some b =>
        refine ((ih hnd.2 p hp' f g hfg hfp x hgp).cons b).trans ?_
        exact List.Perm.swap x b _

theorem placedList_set_place (a a1 : Arrangement) (pos : Pos) (o : Orientation)
    (tile : Tile) (hw : a1.width = a.width) (hh : a1.height = a.height)
    (hfix : a1.fixed_tiles = setCell a.fixed_tiles pos (.Placed o tile))
    (hv : a.valid pos = true) (he : a.fixed_tiles pos = .None) :
    (placedList a1).Perm (tile.id :: placedList a) := by
  unfold placedList
  rw [hw, hh, hfix]
  refine filterMap_update_perm (validPositions a.width a.height)
    (validPositions_nodup _ _) pos ((valid_iff_mem a pos).mp hv)
    (fun p => placementId (a.fixed_tiles p))
    (fun p => placementId (setCell a.fixed_tiles pos (.Placed o tile) p))
    (fun q hq => by simp [setCell, hq]) (by simp [he, placementId]) tile.id
    (by simp [setCell, placementId])

theorem placedList_set_remove (a a2 : Arrangement) (pos : Pos) (o : Orientation)
    (tile : Tile) (hw : a2.width = a.width) (hh : a2.height = a.height)
    (hfix : a2.fixed_tiles = setCell a.fixed_tiles pos .None)
    (hv : a.valid pos = true) (hp : a.fixed_tiles pos = .Placed o tile) :
    (placedList a).Perm (tile.id :: placedList a2) := by
  unfold placedList
  rw [hw, hh, hfix]
  refine filterMap_update_perm (validPositions a.width a.height)
    (validPositions_nodup _ _) pos ((valid_iff_mem a pos).mp hv)
    (fun p => placementId (setCell a.fixed_tiles pos .None p))
    (fun p => placementId (a.fixed_tiles p))
    (fun q hq => by simp [setCell, hq]) (by simp [setCell, placementId]) tile.id
    (by simp [hp, placementId])

theorem mem_placedList (a : Arrangement) (pos : Pos) (o : Orientation) (tile : Tile)
    (hv : a.valid pos = true) (hp : a.fixed_tiles pos = .Placed o tile) :
    tile.id ∈ placedList a := by
  unfold placedList
  rw [List.mem_filterMap]
  exact ⟨pos, (valid_iff_mem a pos).mp hv, by rw [hp]; rfl⟩

theorem length_filterMap_all_some {α β : Type} :
    ∀ (l : List α) (f : α → Option β), (∀ a ∈ l, (f a).isSome) →
      (l.filterMap f).length = l.length := by
  intro l
  induction l with
  | nil => intro f _; rfl
  | cons a t ih =>
    intro f h
    rw [List.filterMap_cons]
    cases hfa : f a with
    | none =>
      have := h a (List.mem_cons_self a t)
      rw [hfa] at this
      cases this
    | some b =>
      rw [List.length_cons, ih f fun q hq => h q (List.mem_cons_of_mem a hq),
        List.length_cons]

theorem foldl_insertTile_spec :
    ∀ (ts : List Tile) (m : TileID → Option Tile) (i : TileID) (t : Tile),
      (ts.foldl (fun m t => insertTile m t) m) i = some t →
      (t ∈ ts ∧ t.id = i) ∨ m i = some t := by
  intro ts
  induction ts with
  | nil => intro m i t h; exact Or.inr h
  | cons a rest ih =>
    intro m i t h
    rcases ih (insertTile m a) i t h with ⟨hm, hid⟩ | hm
    · exact Or.inl ⟨List.mem_cons_of_mem _ hm, hid⟩
    · unfold insertTile at hm
      by_cases hi : i = a.id
      · rw [if_pos hi] at hm
        rw [Option.some.injEq] at hm
        exact Or.inl ⟨by rw [← hm]; exact List.mem_cons_self a rest, by rw [← hm, hi]⟩
      · rw [if_neg hi] at hm
        exact Or.inr hm

theorem initPool_spec (tiles : List Tile) (i : TileID) (t : Tile)
    (h : initPool tiles i = some t) : t ∈ tiles ∧ t.id = i := by
  rcases foldl_insertTile_spec tiles (fun _ => none) i t h with hok | hbad
  · exact hok
  · cases hbad

theorem filterMap_const_none {α β : Type} :
    ∀ l : List α, l.filterMap (fun _ => (none : Option β)) = [] := by
  intro l
  induction l with
  | nil => rfl
  | cons a t ih => rw [List.filterMap_cons]; exact ih

theorem placedList_new (w h : Int) (tiles : List Tile) :
    placedList (Arrangement.new w h tiles) = [] := by
  show (validPositions w h).filterMap (fun _ => (none : Option TileID)) = []
  exact filterMap_const_none _

theorem Inv_init (w h : Int) (tiles : List Tile) :
    Inv tiles (Arrangement.new w h tiles) := by
  constructor
  · intro q hq
    exact absurd hq (List.not_mem_nil q)
  · intro q _ _ hex
    obtain ⟨n, _, hne⟩ := hex
    exact absurd rfl hne
  · intro q _
    rfl
  · rw [placedList_new]
    exact List.nodup_nil
  · intro i t h
    obtain ⟨hmem, hid⟩ := initPool_spec tiles i t h
    exact ⟨hid, by rw [← hid]; exact List.mem_map_of_mem _ hmem,
      by rw [placedList_new]; exact List.not_mem_nil _⟩
  · intro i hi
    rw [placedList_new] at hi
    cases hi

theorem neighbours_symm (q n : Pos) (h : n ∈ q.neighboursList) :
    q ∈ n.neighboursList := by
  obtain ⟨qx, qy⟩ := q
  obtain ⟨nx, ny⟩ := n
  simp only [Pos.neighboursList, Pos.up, Pos.down, Pos.left, Pos.right,
    List.mem_cons, List.not_mem_nil, or_false, Pos.mk.injEq] at h ⊢
  rcases h with ⟨h1, h2⟩ | ⟨h1, h2⟩ | ⟨h1, h2⟩ | ⟨h1, h2⟩ <;> omega

theorem Inv_place (tiles : List Tile) (a : Arrangement) (pos : Pos)
    (o : Orientation) (id : TileID) (a1 : Arrangement) (hInv : Inv tiles a)
    (hv : a.valid pos = true) (he : a.fixed_tiles pos = TilePlacement.None)
    (hplace : a.place pos o id = some a1) : Inv tiles a1 := by
  obtain ⟨tile, hav, hw, hh, hfix, hpool, hnext⟩ := place_spec a pos o id a1 hplace
  obtain ⟨hid, hmem, hnp⟩ := hInv.pool_spec id tile hav
  have hvalid_eq : a1.valid = a.valid := valid_eq_of_dims hw hh
  have hperm := placedList_set_place a a1 pos o tile hw hh hfix hv he
  have hnodup1 : (placedList a1).Nodup := by
    rw [hperm.nodup_iff]
    rw [List.nodup_cons]
    exact ⟨hid ▸ hnp, hInv.placed_nodup⟩
  have hmem1 : ∀ i, i ∈ placedList a1 ↔ (i = tile.id ∨ i ∈ placedList a) :=
    fun i => by rw [hperm.mem_iff, List.mem_cons]
  constructor
  · intro q hq
    rcases (hnext q).mp hq with ⟨hqa, hqne⟩ | ⟨hqn, hqne, hqv, hqe⟩
    · obtain ⟨hv', he'⟩ := hInv.frontier_valid q hqa
      refine ⟨by rw [hvalid_eq]; exact hv', ?_⟩
      rw [hfix]
      simpa [setCell, hqne] using he'
    · refine ⟨by rw [hvalid_eq]; exact hqv, ?_⟩
      rw [hfix]
      simpa [setCell, hqne] using hqe
  · intro q hqv hqe hex
    have hqne : q ≠ pos := by
      intro he'
      rw [hfix, he'] at hqe
      simp [setCell] at hqe
    have hqe' : a.fixed_tiles q = .None := by
      rw [hfix] at hqe
      simpa [setCell, hqne] using hqe
    have hqv' : a.valid q = true := by rw [← hvalid_eq]; exact hqv
    obtain ⟨n, hn, hne⟩ := hex
    by_cases hnp' : n = pos
    · subst hnp'
      exact (hnext q).mpr (Or.inr ⟨neighbours_symm q n hn, hqne, hqv', hqe'⟩)
    · have hne' : a.fixed_tiles n ≠ .None := by
        rw [hfix] at hne
        simpa [setCell, hnp'] using hne
      exact (hnext q).mpr
        (Or.inl ⟨hInv.frontier_complete q hqv' hqe' ⟨n, hn, hne'⟩, hqne⟩)
  · intro q hq
    have hq' : a.valid q = false := by rw [← hvalid_eq]; exact hq
    have hqne : q ≠ pos := by
      intro he'
      rw [he', hv] at hq'
      cases hq'
    rw [hfix]
    simpa [setCell, hqne] using hInv.placed_in_bounds q hq'
  · exact hnodup1
  · intro i t h1
    rw [hpool] at h1
    unfold removeTile at h1
    by_cases hi : i = id
    · rw [if_pos hi] at h1
      cases h1
    · rw [if_neg hi] at h1
      obtain ⟨ht1, ht2, ht3⟩ := hInv.pool_spec i t h1
      refine ⟨ht1, ht2, fun hmm => ?_⟩
      rcases (hmem1 i).mp hmm with he' | he'
      · exact hi (he'.trans hid)
      · exact ht3 he'
  · intro i hi
    rcases (hmem1 i).mp hi with he' | he'
    · rw [he', hid]
      exact hmem
    · exact hInv.placed_sub i he'

theorem Inv_remove (tiles : List Tile) (a : Arrangement) (pos : Pos)
    (o : Orientation) (tile : Tile) (hInv : Inv tiles a)
    (hv : a.valid pos = true) (hp : a.fixed_tiles pos = .Placed o tile) :
    Inv tiles (a.remove pos) := by
  rw [remove_of_placed a pos o tile hp]
  have hperm := placedList_set_remove a
    { a with
      available_tiles := insertTile a.available_tiles tile
      fixed_tiles := setCell a.fixed_tiles pos .None
      next_positions := insertPos a.next_positions pos }
    pos o tile rfl rfl rfl hv hp
  have hnodup2 : (tile.id :: placedList
      { a with
        available_tiles := insertTile a.available_tiles tile
        fixed_tiles := setCell a.fixed_tiles pos .None
        next_positions := insertPos a.next_positions pos }).Nodup := by
    rw [← hperm.nodup_iff]
    exact hInv.placed_nodup
  have htid_not := (List.nodup_cons.mp hnodup2).1
  have hnodup2' := (List.nodup_cons.mp hnodup2).2
  have hmem2 : ∀ i, i ∈ placedList a ↔ (i = tile.id ∨ i ∈ placedList
      { a with
        available_tiles := insertTile a.available_tiles tile
        fixed_tiles := setCell a.fixed_tiles pos .None
        next_positions := insertPos a.next_positions pos }) :=
    fun i => by rw [hperm.mem_iff, List.mem_cons]
  constructor
  · intro q hq
    rcases (mem_insertPos _ _ _).mp hq with hq' | rfl
    · obtain ⟨hv', he'⟩ := hInv.frontier_valid q hq'
      have hqne : q ≠ pos := by
        intro he''
        rw [he''] at he'
        rw [he'] at hp
        cases hp
      exact ⟨hv', by simp only [setCell, if_neg hqne]; exact he'⟩
    · exact ⟨hv, by simp [setCell]⟩
  · intro q hqv hqe hex
    by_cases hqp : q = pos
    · subst hqp
      exact (mem_insertPos _ _ _).mpr (Or.inr rfl)
    · have hqe' : a.fixed_tiles q = .None := by
        simpa [setCell, hqp] using hqe
      obtain ⟨n, hn, hne⟩ := hex
      have hnp' : n ≠ pos := by
        intro he''
        rw [he''] at hne
        exact hne (by simp [setCell])
      have hne' : a.fixed_tiles n ≠ .None := by
        simpa [setCell, hnp'] using hne
      exact (mem_insertPos _ _ _).mpr
        (Or.inl (hInv.frontier_complete q hqv hqe' ⟨n, hn, hne'⟩))
  · intro q hq
    by_cases hqp : q = pos
    · subst hqp
      simp [setCell]
    · simp only [setCell, if_neg hqp]
      exact hInv.placed_in_bounds q hq
  · exact hnodup2'
  · intro i t h1
    have h1' : insertTile a.available_tiles tile i = some t := h1
    unfold insertTile at h1'
    by_cases hi : i = tile.id
    · rw [if_pos hi] at h1'
      rw [Option.some.injEq] at h1'
      refine ⟨by rw [← h1', hi], ?_, hi ▸ htid_not⟩
      rw [hi]
      exact hInv.placed_sub tile.id (mem_placedList a pos o tile hv hp)
    · rw [if_neg hi] at h1'
      obtain ⟨ht1, ht2, ht3⟩ := hInv.pool_spec i t h1'
      exact ⟨ht1, ht2, fun hmm => ht3 ((hmem2 i).mpr (Or.inr hmm))⟩
  · intro i hi
    exact hInv.placed_sub i ((hmem2 i).mpr (Or.inr hi))

theorem errRestores_refl (a : Arrangement) : ErrRestores a a :=
  ⟨rfl, rfl, fun _ => rfl, fun _ => rfl, fun _ h => h⟩

theorem errRestores_trans {a b c : Arrangement} (h1 : ErrRestores a b)
    (h2 : ErrRestores b c) : ErrRestores a c := by
  obtain ⟨w1, h1', c1, p1, n1⟩ := h1
  obtain ⟨w2, h2', c2, p2, n2⟩ := h2
  exact ⟨w2.trans w1, h2'.trans h1', fun q => (c2 q).trans (c1 q),
    fun i => (p2 i).trans (p1 i), fun q hq => n2 q (n1 q hq)⟩

theorem tryCandidates_cons_none
    (recur : Arrangement → Option (Except TileID Unit × Arrangement)) (pos : Pos)
    (c : OrientedTile) (rest : List OrientedTile) (a : Arrangement)
    (h : a.place pos c.orientation c.tile_id = none) :
    tryCandidates recur pos (c :: rest) a = none := by
  show (match a.place pos c.orientation c.tile_id with
    | none => none
    | some a1 =>
      match recur a1 with
      | none => none
      | some (Except.error t, a2) =>
        if t ≠ c.tile_id then some (Except.error t, a2.remove pos)
        else tryCandidates recur pos rest (a2.remove pos)
      | some (Except.ok _, a2) => some (Except.ok (), a2)) = none
  rw [h]

theorem tryCandidates_post (tiles : List Tile)
    (recur : Arrangement → Option (Except TileID Unit × Arrangement))
    (hrec : ∀ a r a', Inv tiles a → recur a = some (r, a') →
      SearchPost tiles a r a') :
    ∀ (cands : List OrientedTile) (pos : Pos) (a : Arrangement)
      (r : Except TileID Unit) (a' : Arrangement),
      Inv tiles a → pos ∈ a.next_positions →
      tryCandidates recur pos cands a = some (r, a') → SearchPost tiles a r a' := by
  intro cands
  induction cands with
  | nil =>
    intro pos a r a' hInv _ h
    have h2 : some ((Except.error 0 : Except TileID Unit), a) = some (r, a') := h
    rw [Option.some.injEq, Prod.mk.injEq] at h2
    rw [← h2.1, ← h2.2]
    exact ⟨errRestores_refl a, hInv⟩
  | cons c rest ih =>
    intro pos a r a' hInv hpos h
    obtain ⟨hvp, hep⟩ := hInv.frontier_valid pos hpos
    cases hpl : a.place pos c.orientation c.tile_id with
    | none =>
      rw [tryCandidates_cons_none recur pos c rest a hpl] at h
      cases h
    | some a1 =>
      rw [tryCandidates_cons recur pos c rest a a1 hpl] at h
      have hInv1 : Inv tiles a1 :=
        Inv_place tiles a pos c.orientation c.tile_id a1 hInv hvp hep hpl
      obtain ⟨tile, hav, hw1, hh1, hfix1, hpool1, hnext1⟩ :=
        place_spec a pos c.orientation c.tile_id a1 hpl
      have htid : tile.id = c.tile_id := (hInv.pool_spec _ _ hav).1
      cases hr1 : recur a1 with
      | none =>
        rw [hr1] at h
        cases h
      | some ra =>
        obtain ⟨r1, a2⟩ := ra
        rw [hr1] at h
        have hpost1 := hrec a1 r1 a2 hInv1 hr1
        cases r1 with
        | ok u =>
          have h2 : some (Except.ok (), a2) = some (r, a') := h
          rw [Option.some.injEq, Prod.mk.injEq] at h2
          obtain ⟨hkeeps, hInv2⟩ := hpost1
          rw [← h2.1, ← h2.2]
          refine ⟨⟨hkeeps.1.trans hw1, hkeeps.2.1.trans hh1, ?_⟩, hInv2⟩
          intro q hq
          have hqne : q ≠ pos := fun he' => hq (he' ▸ hep)
          have hq1 : a1.fixed_tiles q = a.fixed_tiles q := by
            rw [hfix1]
            simp [setCell, hqne]
          rw [← hq1]
          exact hkeeps.2.2 q (by rw [hq1]; exact hq)
        | error t =>
          have h2 : (if t ≠ c.tile_id then some (Except.error t, a2.remove pos)
              else tryCandidates recur pos rest (a2.remove pos)) = some (r, a') := h
          obtain ⟨hrest1, hInv2⟩ := hpost1
          have hplaced2 : a2.fixed_tiles pos = .Placed c.orientation tile := by
            rw [hrest1.2.2.1 pos, hfix1]
            simp [setCell]
          have hv2 : a2.valid pos = true := by
            rw [valid_eq_of_dims (hrest1.1.trans hw1) (hrest1.2.1.trans hh1)]
            exact hvp
          have hInv3 : Inv tiles (a2.remove pos) :=
            Inv_remove tiles a2 pos c.orientation tile hInv2 hv2 hplaced2
          have hrem := remove_of_placed a2 pos c.orientation tile hplaced2
          have hrestore : ErrRestores a (a2.remove pos) := by
            rw [hrem]
            refine ⟨hrest1.1.trans hw1, hrest1.2.1.trans hh1, ?_, ?_, ?_⟩
            · intro q
              by_cases hq : q = pos
              · subst hq
                simp only [setCell, if_pos rfl]
                exact hep.symm
              · simp only [setCell, if_neg hq]
                rw [hrest1.2.2.1 q, hfix1]
                simp [setCell, hq]
            · intro i
              show insertTile a2.available_tiles tile i = a.available_tiles i
              unfold insertTile
              by_cases hi : i = tile.id
              · rw [if_pos hi, hi, htid]
                exact hav.symm
              · rw [if_neg hi, hrest1.2.2.2.1 i, hpool1]
                unfold removeTile
                rw [if_neg fun he' => hi (he'.trans htid.symm)]
            · intro q hq
              show q ∈ insertPos a2.next_positions pos
              by_cases hqp : q = pos
              · exact (mem_insertPos _ _ _).mpr (Or.inr hqp)
              · refine (mem_insertPos _ _ _).mpr (Or.inl ?_)
                exact hrest1.2.2.2.2 q ((hnext1 q).mpr (Or.inl ⟨hq, hqp⟩))
          by_cases hne : t ≠ c.tile_id
          · rw [if_pos hne] at h2
            rw [Option.some.injEq, Prod.mk.injEq] at h2
            rw [← h2.1, ← h2.2]
            exact ⟨hrestore, hInv3⟩
          · rw [if_neg hne] at h2
            have hpos3 : pos ∈ (a2.remove pos).next_positions := by
              rw [hrem]
              exact (mem_insertPos _ _ _).mpr (Or.inr rfl)
            have hpost3 := ih pos (a2.remove pos) r a' hInv3 hpos3 h2
            cases r with
            | error t' =>
              obtain ⟨hrest3, hInv4⟩ := hpost3
              exact ⟨errRestores_trans hrestore hrest3, hInv4⟩
            | ok u' =>
              obtain ⟨hkeeps3, hInv4⟩ := hpost3
              refine ⟨⟨hkeeps3.1.trans hrestore.1, hkeeps3.2.1.trans hrestore.2.1,
                ?_⟩, hInv4⟩
              intro q hq
              have hcell := hrestore.2.2.1 q
              rw [← hcell]
              exact hkeeps3.2.2 q (by rw [hcell]; exact hq)

theorem tryArrange_post (tiles : List Tile) (allowed : AllowedFn) :
    ∀ (f : Nat) (a : Arrangement) (r : Except TileID Unit) (a' : Arrangement),
      Inv tiles a → tryArrange allowed f a = some (r, a') →
      SearchPost tiles a r a' := by
  intro f
  induction f with
  | zero =>
    intro a r a' _ h
    cases h
  | succ f ih =>
    intro a r a' hInv h
    have h0 : (match a.next_positions.head? with
        | none => some ((Except.ok () : Except TileID Unit), a)
        | some pos =>
          match a.possible_orientations pos allowed with
          | none => none
          | some (Except.error t) => some (Except.error t, a)
          | some (Except.ok cands) =>
            tryCandidates (tryArrange allowed f) pos cands a) = some (r, a') := h
    cases hh : a.next_positions.head? with
    | none =>
      rw [hh] at h0
      have h2 : some ((Except.ok () : Except TileID Unit), a) = some (r, a') := h0
      rw [Option.some.injEq, Prod.mk.injEq] at h2
      rw [← h2.1, ← h2.2]
      exact ⟨⟨rfl, rfl, fun _ _ => rfl⟩, hInv⟩
    | some pos =>
      rw [hh] at h0
      have h1 : (match a.possible_orientations pos allowed with
          | none => none
          | some (Except.error t) => some (Except.error t, a)
          | some (Except.ok cands) =>
            tryCandidates (tryArrange allowed f) pos cands a) = some (r, a') := h0
      have hpos : pos ∈ a.next_positions := List.mem_of_mem_head? hh
      cases hpo : a.possible_orientations pos allowed with
      | none =>
        rw [hpo] at h1
        cases h1
      | some res =>
        cases res with
        | error t =>
          rw [hpo] at h1
          have h2 : some ((Except.error t : Except TileID Unit), a) = some (r, a') := h1
          rw [Option.some.injEq, Prod.mk.injEq] at h2
          rw [← h2.1, ← h2.2]
          exact ⟨errRestores_refl a, hInv⟩
        | ok cands =>
          rw [hpo] at h1
          have h2 : tryCandidates (tryArrange allowed f) pos cands a =
              some (r, a') := h1
          exact tryCandidates_post tiles (tryArrange allowed f) ih cands pos a r a'
            hInv hpos h2

theorem tryCandidates_ok_frontier
    (recur : Arrangement → Option (Except TileID Unit × Arrangement))
    (hrec : ∀ a a', recur a = some (Except.ok (), a') → a'.next_positions = []) :
    ∀ (cands : List OrientedTile) (pos : Pos) (a a' : Arrangement),
      tryCandidates recur pos cands a = some (Except.ok (), a') →
      a'.next_positions = [] := by
  intro cands
  induction cands with
  | nil =>
    intro pos a a' h
    have h2 : some ((Except.error 0 : Except TileID Unit), a) =
        some (Except.ok (), a') := h
    rw [Option.some.injEq, Prod.mk.injEq] at h2
    cases h2.1
  | cons c rest ih =>
    intro pos a a' h
    cases hpl : a.place pos c.orientation c.tile_id with
    | none =>
      rw [tryCandidates_cons_none recur pos c rest a hpl] at h
      cases h
    | some a1 =>
      rw [tryCandidates_cons recur pos c rest a a1 hpl] at h
      cases hr1 : recur a1 with
      | none =>
        rw [hr1] at h
        cases h
      | some ra =>
        obtain ⟨r1, a2⟩ := ra
        rw [hr1] at h
        cases r1 with
        | ok u =>
          have h2 : some ((Except.ok () : Except TileID Unit), a2) =
              some (Except.ok (), a') := h
          rw [Option.some.injEq, Prod.mk.injEq] at h2
          rw [← h2.2]
          exact hrec a1 a2 hr1
        | error t =>
          have h2 : (if t ≠ c.tile_id then some (Except.error t, a2.remove pos)
              else tryCandidates recur pos rest (a2.remove pos)) =
              some (Except.ok (), a') := h
          by_cases hne : t ≠ c.tile_id
          · rw [if_pos hne] at h2
            rw [Option.some.injEq, Prod.mk.injEq] at h2
            cases h2.1
          · rw [if_neg hne] at h2
            exact ih pos (a2.remove pos) a' h2

theorem tryArrange_ok_frontier (allowed : AllowedFn) :
    ∀ (f : Nat) (a a' : Arrangement),
      tryArrange allowed f a = some (Except.ok (), a') →
      a'.next_positions = [] := by
  intro f
  induction f with
  | zero =>
    intro a a' h
    cases h
  | succ f ih =>
    intro a a' h
    have h0 : (match a.next_positions.head? with
        | none => some ((Except.ok () : Except TileID Unit), a)
        | some pos =>
          match a.possible_orientations pos allowed with
          | none => none
          | some (Except.error t) => some (Except.error t, a)
          | some (Except.ok cands) =>
            tryCandidates (tryArrange allowed f) pos cands a) =
        some (Except.ok (), a') := h
    cases hh : a.next_positions.head? with
    | none =>
      rw [hh] at h0
      have h2 : some ((Except.ok () : Except TileID Unit), a) =
          some (Except.ok (), a') := h0
      rw [Option.some.injEq, Prod.mk.injEq] at h2
      rw [← h2.2]
      exact List.head?_eq_none_iff.mp hh
    | some pos =>
      rw [hh] at h0
      have h1 : (match a.possible_orientations pos allowed with
          | none => none
          | some (Except.error t) => some (Except.error t, a)
          | some (Except.ok cands) =>
            tryCandidates (tryArrange allowed f) pos cands a) =
          some (Except.ok (), a') := h0
      cases hpo : a.possible_orientations pos allowed with
      | none =>
        rw [hpo] at h1
        cases h1
      | some res =>
        cases res with
        | error t =>
          rw [hpo] at h1
          have h2 : some ((Except.error t : Except TileID Unit), a) =
              some (Except.ok (), a') := h1
          rw [Option.some.injEq, Prod.mk.injEq] at h2
          cases h2.1
        | ok cands =>
          rw [hpo] at h1
          exact tryCandidates_ok_frontier (tryArrange allowed f) ih cands pos a a' h1

theorem tryArrange_of_empty_frontier (allowed : AllowedFn) (f : Nat)
    (a : Arrangement) (hnext : a.next_positions = []) :
    tryArrange allowed (f + 1) a = some (.ok (), a) := by
  have hh : a.next_positions.head? = none := by
    rw [hnext]
    rfl
  show (match a.next_positions.head? with
    | none => some ((Except.ok () : Except TileID Unit), a)
    | some pos =>
      match a.possible_orientations pos allowed with
      | none => none
      | some (Except.error t) => some (Except.error t, a)
      | some (Except.ok cands) =>
        tryCandidates (tryArrange allowed f) pos cands a) = _
  rw [hh]

theorem arrangeGo_some (allowed : AllowedFn) (w h : Int) (tiles : List Tile) :
    ∀ (attempts : List (Tile × Orientation)) (arr : Arrangement),
      arrangeGo allowed w h tiles attempts = some (some arr) →
      ∃ t o, anchorAttempt allowed w h tiles t o = some (.ok arr) := by
  intro attempts
  induction attempts with
  | nil =>
    intro arr hgo
    have h2 : (some (none : Option Arrangement) : Option (Option Arrangement)) =
        some (some arr) := hgo
    rw [Option.some.injEq] at h2
    cases h2
  | cons p rest ih =>
    intro arr hgo
    obtain ⟨t0, o0⟩ := p
    cases hat : anchorAttempt allowed w h tiles t0 o0 with
    | none =>
      rw [show arrangeGo allowed w h tiles ((t0, o0) :: rest) =
          (match anchorAttempt allowed w h tiles t0 o0 with
            | none => none
            | some (Except.ok arr) => some (some arr)
            | some (Except.error _) => arrangeGo allowed w h tiles rest) from rfl,
        hat] at hgo
      cases hgo
    | some res =>
      rw [show arrangeGo allowed w h tiles ((t0, o0) :: rest) =
          (match anchorAttempt allowed w h tiles t0 o0 with
            | none => none
            | some (Except.ok arr) => some (some arr)
            | some (Except.error _) => arrangeGo allowed w h tiles rest) from rfl,
        hat] at hgo
      cases res with
      | ok arr0 =>
        have h2 : some (some arr0) = some (some arr) := hgo
        rw [Option.some.injEq, Option.some.injEq] at h2
        exact ⟨t0, o0, by rw [hat, h2]⟩
      | error e =>
        have h2 : arrangeGo allowed w h tiles rest = some (some arr) := hgo
        exact ih arr h2

theorem anchorAttempt_ok (allowed : AllowedFn) (w h : Int) (tiles : List Tile)
    (t : Tile) (o : Orientation) (arr : Arrangement) (hw : 0 < w) (hh : 0 < h)
    (hatt : anchorAttempt allowed w h tiles t o = some (.ok arr)) :
    Inv tiles arr ∧ arr.next_positions = [] ∧
      arr.fixed_tiles ⟨0, 0⟩ ≠ .None ∧ arr.width = w ∧ arr.height = h := by
  have hatt0 : (match (Arrangement.new w h tiles).place ⟨0, 0⟩ o t.id with
      | none => none
      | some a1 =>
        match tryArrange allowed (tiles.length + 1) a1 with
        | none => none
        | some (Except.ok _, a2) => some (Except.ok a2)
        | some (Except.error t', _) => some (Except.error t')) =
      some (Except.ok arr) := hatt
  cases hpl : (Arrangement.new w h tiles).place ⟨0, 0⟩ o t.id with
  | none =>
    rw [hpl] at hatt0
    cases hatt0
  | some a1 =>
    rw [hpl] at hatt0
    have h1 : (match tryArrange allowed (tiles.length + 1) a1 with
        | none => none
        | some (Except.ok _, a2) => some (Except.ok a2)
        | some (Except.error t', _) => some (Except.error t')) =
        some (Except.ok arr) := hatt0
    have hv0 : (Arrangement.new w h tiles).valid ⟨0, 0⟩ = true := by
      simp only [Arrangement.valid, Arrangement.new, Bool.and_eq_true,
        decide_eq_true_eq]
      refine ⟨⟨⟨by omega, by omega⟩, by omega⟩, by omega⟩
    have hInv1 : Inv tiles a1 :=
      Inv_place tiles (Arrangement.new w h tiles) ⟨0, 0⟩ o t.id a1
        (Inv_init w h tiles) hv0 rfl hpl
    cases htr : tryArrange allowed (tiles.length + 1) a1 with
    | none =>
      rw [htr] at h1
      cases h1
    | some ra =>
      obtain ⟨r1, a2⟩ := ra
      rw [htr] at h1
      cases r1 with
      | error t' =>
        have h2 : some (Except.error t' : Except TileID Arrangement) =
            some (Except.ok arr) := h1
        rw [Option.some.injEq] at h2
        cases h2
      | ok u =>
        have h2 : some (Except.ok a2 : Except TileID Arrangement) =
            some (Except.ok arr) := h1
        rw [Option.some.injEq, Except.ok.injEq] at h2
        subst h2
        have hp : OkKeeps a1 a2 ∧ Inv tiles a2 :=
          tryArrange_post tiles allowed (tiles.length + 1) a1 (.ok u) a2 hInv1 htr
        have hfront : a2.next_positions = [] :=
          tryArrange_ok_frontier allowed (tiles.length + 1) a1 a2 htr
        obtain ⟨tile0, hav0, hw1, hh1, hfix1, _, _⟩ :=
          place_spec (Arrangement.new w h tiles) ⟨0, 0⟩ o t.id a1 hpl
        have hanchor1 : a1.fixed_tiles ⟨0, 0⟩ = .Placed o tile0 := by
          rw [hfix1]
          simp [setCell]
        have hanchor2 : a2.fixed_tiles ⟨0, 0⟩ ≠ .None := by
          rw [hp.1.2.2 ⟨0, 0⟩ (by rw [hanchor1]; simp), hanchor1]
          simp
        exact ⟨hp.2, hfront, hanchor2, hp.1.1.trans hw1, hp.1.2.1.trans hh1⟩

theorem coverage (arr : Arrangement) (tiles : List Tile) (hInv : Inv tiles arr)
    (hfront : arr.next_positions = [])
    (hanchor : arr.fixed_tiles ⟨0, 0⟩ ≠ .None) :
    ∀ p : Pos, arr.valid p = true → arr.fixed_tiles p ≠ .None := by
  have key : ∀ q, arr.valid q = true → arr.fixed_tiles q = .None →
      ∀ n ∈ q.neighboursList, arr.fixed_tiles n = .None := by
    intro q hq he n hn
    by_contra hne
    have hmem := hInv.frontier_complete q hq he ⟨n, hn, hne⟩
    rw [hfront] at hmem
    cases hmem
  have row0 : ∀ x : Nat, arr.valid ⟨(x : Int), 0⟩ = true →
      arr.fixed_tiles ⟨(x : Int), 0⟩ ≠ .None := by
    intro x
    induction x with
    | zero =>
      intro _
      simpa using hanchor
    | succ x ihx =>
      intro hvx
      have hvx' : arr.valid ⟨(x : Int), 0⟩ = true := by
        simp only [Arrangement.valid, Bool.and_eq_true, decide_eq_true_eq] at hvx ⊢
        omega
      have hplaced := ihx hvx'
      by_contra he
      have hleft : Pos.left ⟨((x + 1 : Nat) : Int), 0⟩ = ⟨(x : Int), 0⟩ := by
        simp only [Pos.left, Pos.mk.injEq]
        exact ⟨by omega, trivial⟩
      have hmem : (⟨(x : Int), 0⟩ : Pos) ∈
          (⟨((x + 1 : Nat) : Int), 0⟩ : Pos).neighboursList := by
        rw [← hleft]
        simp [Pos.neighboursList]
      exact hplaced (key ⟨((x + 1 : Nat) : Int), 0⟩ hvx (by simpa using he)
        ⟨(x : Int), 0⟩ hmem)
  have rows : ∀ y : Nat, ∀ x : Nat,
      arr.valid ⟨(x : Int), (y : Int)⟩ = true →
      arr.fixed_tiles ⟨(x : Int), (y : Int)⟩ ≠ .None := by
    intro y
    induction y with
    | zero =>
      intro x hv
      have := row0 x (by simpa using hv)
      simpa using this
    | succ y ihy =>
      intro x hvx
      have hvy : arr.valid ⟨(x : Int), (y : Int)⟩ = true := by
        simp only [Arrangement.valid, Bool.and_eq_true, decide_eq_true_eq] at hvx ⊢
        omega
      have hplaced := ihy x hvy
      by_contra he
      have hup : Pos.up ⟨(x : Int), ((y + 1 : Nat) : Int)⟩ = ⟨(x : Int), (y : Int)⟩ := by
        simp only [Pos.up, Pos.mk.injEq]
        refine ⟨?_, ?_⟩ <;> first | trivial | omega
      have hmem : (⟨(x : Int), (y : Int)⟩ : Pos) ∈
          (⟨(x : Int), ((y + 1 : Nat) : Int)⟩ : Pos).neighboursList := by
        rw [← hup]
        simp [Pos.neighboursList]
      exact hplaced (key ⟨(x : Int), ((y + 1 : Nat) : Int)⟩ hvx (by simpa using he)
        ⟨(x : Int), (y : Int)⟩ hmem)
  intro p hp
  obtain ⟨px, py⟩ := p
  have hb : 0 ≤ px ∧ 0 ≤ py := by
    simp only [Arrangement.valid, Bool.and_eq_true, decide_eq_true_eq] at hp
    exact ⟨hp.1.1.1, hp.1.1.2⟩
  have hcast : (⟨px, py⟩ : Pos) = ⟨(px.toNat : Int), (py.toNat : Int)⟩ := by
    rw [Pos.mk.injEq]
    omega
  rw [hcast] at hp ⊢
  exact rows py.toNat px.toNat hp

theorem pool_empty (arr : Arrangement) (tiles : List Tile) (hInv : Inv tiles arr)
    (hnd : (tiles.map Tile.id).Nodup)
    (hcover : ∀ p, arr.valid p = true → arr.fixed_tiles p ≠ .None)
    (hlen : (tiles.length : Int) = arr.width * arr.height)
    (hw : 0 < arr.width) (hh : 0 < arr.height) :
    ∀ i, arr.available_tiles i = none := by
  have hplen : (placedList arr).length = tiles.length := by
    unfold placedList
    rw [length_filterMap_all_some _ _ ?hsome, validPositions_length]
    · have h1 : (tiles.length : Int) = ((arr.width.toNat * arr.height.toNat : Nat) : Int) := by
        rw [Nat.cast_mul, Int.toNat_of_nonneg (le_of_lt hw),
          Int.toNat_of_nonneg (le_of_lt hh)]
        exact hlen
      have h2 : tiles.length = arr.width.toNat * arr.height.toNat := by
        exact_mod_cast h1
      rw [h2, Nat.mul_comm]
    case hsome =>
      intro p hp
      have hv := (valid_iff_mem arr p).mpr hp
      have hne := hcover p hv
      cases hc : arr.fixed_tiles p with
      | None => exact absurd hc hne
      | Placed o tile => rfl
  have hfin : (placedList arr).toFinset = (tiles.map Tile.id).toFinset := by
    apply Finset.eq_of_subset_of_card_le
    · intro i hi
      rw [List.mem_toFinset] at hi
      rw [List.mem_toFinset]
      exact hInv.placed_sub i hi
    · rw [List.toFinset_card_of_nodup hnd,
        List.toFinset_card_of_nodup hInv.placed_nodup, List.length_map, ← hplen]
  have hall : ∀ i ∈ tiles.map Tile.id, i ∈ placedList arr := by
    intro i hi
    rw [← List.mem_toFinset] at hi ⊢
    rw [hfin]
    exact hi
  intro i
  cases hp : arr.available_tiles i with
  | none => rfl
  | some t =>
    obtain ⟨_, hmem, hnp⟩ := hInv.pool_spec i t hp
    exact (hnp (hall i hmem)).elim

/-- C4, counterexample to the claim as stated: c4Tiles is a solvable 2x2
instance (c4Solution is a valid full tiling of it, each tile used exactly
once with all touching edges bit-equal), yet the top-level search dies with
a panic (embedded as none) instead of terminating with a fully placed
arrangement: the reversed-seam matches lure the determinized search into
placing an already-used tile, and place panics on a tile absent from the
pool. -/
theorem c4_counterexample :
    isValidTiling c4Tiles 2 2 c4Solution = true ∧
      arrange_tiles 2 2 c4Tiles = none :=
  ⟨by decide, rfl⟩

/-- Claim C4, amended: the search postcondition holds on those runs that do
return an arrangement. Whenever arrange_tiles returns a completed arrangement
for a positive width-by-height grid with exactly width*height tiles of
pairwise distinct ids, every in-bounds position of that arrangement is
Placed and its pool of available tiles is empty; moreover try_arrange
returns success exactly when the frontier is empty: any successful
try_arrange run ends with an empty frontier, and on an empty frontier it
returns success immediately, leaving the state untouched. (The original
claim's guarantee that the search succeeds on every solvable instance is
refuted by c4_counterexample.) -/
theorem c4_search_partial_correctness :
    (∀ (w h : Int) (tiles : List Tile) (arr : Arrangement),
        0 < w → 0 < h → (tiles.map Tile.id).Nodup →
        (tiles.length : Int) = w * h →
        arrange_tiles w h tiles = some (some arr) →
        (∀ p : Pos, arr.valid p = true → arr.fixed_tiles p ≠ .None) ∧
          ∀ i, arr.available_tiles i = none) ∧
    (∀ (allowed : AllowedFn) (f : Nat) (a a' : Arrangement),
        tryArrange allowed f a = some (.ok (), a') → a'.next_positions = []) ∧
    ∀ (allowed : AllowedFn) (f : Nat) (a : Arrangement),
        a.next_positions = [] → tryArrange allowed (f + 1) a = some (.ok (), a) := by
  refine ⟨?_, fun allowed => tryArrange_ok_frontier allowed,
    fun allowed f a hn => tryArrange_of_empty_frontier allowed f a hn⟩
  intro w h tiles arr hw hh hnd hlen harr
  obtain ⟨t, o, hatt⟩ := arrangeGo_some (AllowedOrientedTiles.new tiles) w h tiles
    (tiles.flatMap fun t => Orientation.all.map fun o => (t, o)) arr harr
  obtain ⟨hInv, hfront, hanchor, hwid, hhei⟩ :=
    anchorAttempt_ok (AllowedOrientedTiles.new tiles) w h tiles t o arr hw hh hatt
  have hcover := coverage arr tiles hInv hfront hanchor
  exact ⟨hcover, pool_empty arr tiles hInv hnd hcover
    (by rw [hwid, hhei]; exact hlen) (by rw [hwid]; exact hw) (by rw [hhei]; exact hh)⟩

/-- Witness for the amended C4 at the concrete 1x1 instance c4wTiles: the
returned arrangement has the origin Placed and tile 9 gone from the pool. -/
theorem c4_search_partial_correctness_witness :
    c4wArr.fixed_tiles ⟨0, 0⟩ ≠ TilePlacement.None ∧
      c4wArr.available_tiles 9 = none := by
  have harr : arrange_tiles 1 1 c4wTiles = some (some c4wArr) := rfl
  have hc := c4_search_partial_correctness.1 1 1 c4wTiles c4wArr (by decide) (by decide)
    (by decide) (by decide) harr
  exact ⟨hc.1 ⟨0, 0⟩ (by decide), hc.2 9⟩

end Day20
